import Mathlib

/-!
# redismaint: a maintenance-window scheduler on top of Redis

A shallow embedding of `rmaint.go` (package `redismaint`) together with the
pieces of the Go standard library and of `redigo` that the scheduler calls:

* `time.Parse` for the fixed layout `tfmt = "15:04:05"`, `Time.After`,
  `Time.Before`, `Weekday.String`, `strings.ToLower`;
* `encoding/json` for the two types the scheduler serialises,
  `EventMessage` and `map[string]Schedule`;
* the Redis commands `HGET`, `HSET` and `PUBLISH` as seen through a
  `redis.Conn`, with the reply helpers `redis.String` and `redis.Bool`.

Go strings are byte sequences; they are modelled as lists of byte values.
Code that touches the outside world (`time.Now`, the Redis server, the two
callbacks) is modelled by explicit state passing: the store is a value, every
command issued on a connection and every callback invocation is appended to a
trace, and a connection carries an oracle saying which commands fail.
-/

namespace Redismaint

/-! ## Strings -/

/-- Go `string` and `[]byte`: a sequence of bytes, each a value below 256. -/
abbrev GoString := List Nat

/-- The bytes of an ASCII literal. -/
def ascii (s : String) : GoString := s.data.map Char.toNat

/-- Function `strings.ToLower` on its ASCII path: every byte in `A..Z` is
moved to `a..z`, all other bytes are kept.  (For input with a byte of 0x80 or
above Go switches to `unicode.ToLower` per rune; the scheduler only passes
the English weekday names.) -/
def ToLower (s : GoString) : GoString :=
  s.map fun c => if 65 ≤ c ∧ c ≤ 90 then c + 32 else c

/-- Decimal rendering of a non-negative integer, as `fmt.Sprint(n)` and the
verb `%d` produce it. -/
def itoa (n : Nat) : GoString := (Nat.toDigits 10 n).map Char.toNat

/-! ## Package `time` -/

/-- Type `time.Weekday`. -/
inductive Weekday
  | Sunday | Monday | Tuesday | Wednesday | Thursday | Friday | Saturday
  deriving DecidableEq, Repr

/-- Method `Weekday.String`: the English name of the day. -/
def Weekday.String : Weekday → GoString
  | .Sunday => ascii "Sunday"
  | .Monday => ascii "Monday"
  | .Tuesday => ascii "Tuesday"
  | .Wednesday => ascii "Wednesday"
  | .Thursday => ascii "Thursday"
  | .Friday => ascii "Friday"
  | .Saturday => ascii "Saturday"

/-- A `time.Time` produced by `time.Parse` with the layout `tfmt`: such a
value always lies on 1 January of year 0 in UTC, so it is represented by the
nanoseconds elapsed since that midnight. -/
structure Time where
  ns : Nat
  deriving DecidableEq, Repr

/-- Method `Time.After`. -/
def Time.After (t u : Time) : Bool := decide (u.ns < t.ns)

/-- Method `Time.Before`. -/
def Time.Before (t u : Time) : Bool := decide (t.ns < u.ns)

/-- Function `time.Date(0, January, 1, hour, min, sec, nsec, time.UTC)`. -/
def Date (hour min sec nsec : Nat) : Time :=
  ⟨(hour * 3600 + min * 60 + sec) * 1000000000 + nsec⟩

/-- Helper `isDigit` of `time/format.go`: is `s[i]` in range and a decimal
digit. -/
def isDigit (s : GoString) (i : Nat) : Bool :=
  match s[i]? with
  | some c => decide (48 ≤ c ∧ c ≤ 57)
  | none => false

/-- Helper `getnum` of `time/format.go`: a one- or two-digit number at the
front of `s`; with `fixed` it must have two digits. -/
def getnum (s : GoString) (fixed : Bool) : Option (Nat × GoString) :=
  if !isDigit s 0 then none
  else if !isDigit s 1 then
    if fixed then none else some (s.headD 0 - 48, s.drop 1)
  else some ((s.headD 0 - 48) * 10 + (s.getD 1 0 - 48), s.drop 2)

/-- Helper `skip` of `time/format.go` for a one-byte literal of the layout
(here always the colon): the value must start with that byte. -/
def skip (value : GoString) (c : Nat) : Option GoString :=
  match value with
  | [] => none
  | v :: rest => if v ≠ c then none else some rest

/-- Helper `commaOrPeriod` of `time/format.go`. -/
def commaOrPeriod (b : Nat) : Bool := b == 46 || b == 44

/-- Helper `atoi` of `time/format.go` on a run of decimal digits. -/
def atoi (s : GoString) : Nat := s.foldl (fun acc c => acc * 10 + (c - 48)) 0

/-- The number of leading decimal digits of `s`. -/
def digitRun : GoString → Nat
  | [] => 0
  | c :: rest => if 48 ≤ c ∧ c ≤ 57 then digitRun rest + 1 else 0

/-- Helper `parseNanoseconds` of `time/format.go`: `value` starts with a
comma or period followed by digits and `nbytes` is the length of that run,
separator included.  At most nine digits are read; the result is scaled to
nanoseconds. -/
def parseNanoseconds (value : GoString) (nbytes : Nat) : Option Nat :=
  if !commaOrPeriod (value.headD 0) then none
  else
    let nbytes := if nbytes > 10 then 10 else nbytes
    some (atoi ((value.take nbytes).drop 1) * 10 ^ (10 - nbytes))

/-- Function `time.Parse(tfmt, value)` for the layout `tfmt = "15:04:05"` of
the scheduler.  The layout has three chunks: `15` (hour, one or two digits,
below 24), `:04` (a colon and a two-digit minute below 60) and `:05` (a colon
and a two-digit second below 60).  After the seconds a fractional part, a
comma or period followed by at least one digit, is accepted although the
layout has none.  Any text left over is an error.  `none` stands for a
non-nil error. -/
def Parse (value : GoString) : Option Time :=
  match getnum value false with
  | none => none
  | some (hour, value) =>
    if 24 ≤ hour then none
    else
      match skip value 58 with
      | none => none
      | some value =>
        match getnum value true with
        | none => none
        | some (min, value) =>
          if 60 ≤ min then none
          else
            match skip value 58 with
            | none => none
            | some value =>
              match getnum value true with
              | none => none
              | some (sec, value) =>
                if 60 ≤ sec then none
                else if value.length ≥ 2 && commaOrPeriod (value.headD 0) && isDigit value 1 then
                  let n := 2 + digitRun (value.drop 2)
                  match parseNanoseconds value n with
                  | none => none
                  | some nsec =>
                    if (value.drop n).length ≠ 0 then none
                    else some (Date hour min sec nsec)
                else if value.length ≠ 0 then none
                else some (Date hour min sec 0)

/-! ## Data model of the scheduler -/

/-- Struct `Schedule`. -/
structure Schedule where
  Day : GoString
  StartFmt : GoString
  EndFmt : GoString
  deriving DecidableEq, Repr

/-- Type `map[string]Schedule`.  `none` is the nil map; `some l` is a
non-nil map whose entries are the pairs of `l`, a key being bound to the
first pair that carries it. -/
abbrev ScheduleMap := Option (List (GoString × Schedule))

/-- Map read `m[k]` with the comma-ok result; a nil map has no entries. -/
def mapGet (m : ScheduleMap) (k : GoString) : Option Schedule :=
  match m with
  | none => none
  | some l => l.lookup k

/-- Map write `m[k] = v` on the entries of a non-nil map. -/
def mapSet (l : List (GoString × Schedule)) (k : GoString) (v : Schedule) :
    List (GoString × Schedule) :=
  (k, v) :: l.filter fun e => e.1 != k

/-- Struct `Event`. -/
structure Event where
  ID : GoString
  Schedules : ScheduleMap
  deriving DecidableEq, Repr

/-- Struct `EventMessage`. -/
structure EventMessage where
  ID : GoString
  deriving DecidableEq, Repr

/-- Function `CreateSchedules`: a fresh map with `sm[s.Day] = s` for every
argument in order.  The key is `s.Day` as given. -/
def CreateSchedules (schedules : List Schedule) : ScheduleMap :=
  some (schedules.foldl (fun sm s => mapSet sm s.Day s) [])

/-- What `between` reads off `time.Now()`: the weekday and the wall clock
(`now.Clock()`). -/
structure Now where
  weekday : Weekday
  hh : Nat
  mm : Nat
  ss : Nat
  deriving DecidableEq, Repr

/-- A clock reading as `Time.Clock` returns it. -/
def Now.Valid (now : Now) : Prop := now.hh < 24 ∧ now.mm < 60 ∧ now.ss < 60

/-- Function `leadZero`. -/
def leadZero (n : Nat) : GoString :=
  if n < 10 then ascii "0" ++ itoa n else itoa n

/-- Method `MaintenanceScheduler.between`, with the current time as an
argument.  The result is `(bool, error)`: `.ok b` has a nil error, `.error`
carries the message the error is wrapped with. -/
def between (event : Event) (now : Now) : Except String Bool :=
  match Parse (leadZero now.hh ++ ascii ":" ++ leadZero now.mm ++ ascii ":" ++ leadZero now.ss) with
  | none => .error "unable to parse current time"
  | some tnow =>
    let day := ToLower now.weekday.String
    match mapGet event.Schedules day with
    | none => .ok false
    | some schedule =>
      match Parse schedule.StartFmt with
      | none => .error "unable to parse start time"
      | some stime =>
        match Parse schedule.EndFmt with
        | none => .error "unable to parse end time"
        | some etime =>
          if !(tnow.After stime && tnow.Before etime) then .ok false
          else .ok true

/-! ## Package `unicode/utf8` -/

/-- Constant `utf8.RuneError`, also `unicode.ReplacementChar`. -/
def RuneError : Nat := 0xFFFD

/-- The tables `first` and `acceptRanges` of `unicode/utf8` for a leading
byte of a multi-byte sequence: the length of the sequence and the range the
second byte must lie in.  `none` is the entry `xx` (not a leading byte). -/
def first (p0 : Nat) : Option (Nat × Nat × Nat) :=
  if 0xC2 ≤ p0 ∧ p0 ≤ 0xDF then some (2, 0x80, 0xBF)
  else if p0 = 0xE0 then some (3, 0xA0, 0xBF)
  else if 0xE1 ≤ p0 ∧ p0 ≤ 0xEC then some (3, 0x80, 0xBF)
  else if p0 = 0xED then some (3, 0x80, 0x9F)
  else if 0xEE ≤ p0 ∧ p0 ≤ 0xEF then some (3, 0x80, 0xBF)
  else if p0 = 0xF0 then some (4, 0x90, 0xBF)
  else if 0xF1 ≤ p0 ∧ p0 ≤ 0xF3 then some (4, 0x80, 0xBF)
  else if p0 = 0xF4 then some (4, 0x80, 0x8F)
  else none

/-- A continuation byte, `locb ≤ b ≤ hicb`. -/
def isCont (b : Nat) : Bool := decide (0x80 ≤ b ∧ b ≤ 0xBF)

/-- Functions `utf8.DecodeRune` and `utf8.DecodeRuneInString`: the first rune
of `p` and its width in bytes; `(RuneError, 1)` for an invalid encoding and
`(RuneError, 0)` for empty input.  Masks and shifts are written as
remainders and products. -/
def DecodeRune (p : GoString) : Nat × Nat :=
  match p with
  | [] => (RuneError, 0)
  | p0 :: rest =>
    if p0 < 0x80 then (p0, 1)
    else
      match first p0 with
      | none => (RuneError, 1)
      | some (sz, lo, hi) =>
        if p.length < sz then (RuneError, 1)
        else
          let b1 := rest.getD 0 0
          if b1 < lo ∨ hi < b1 then (RuneError, 1)
          else if sz ≤ 2 then ((p0 % 32) * 64 + b1 % 64, 2)
          else
            let b2 := rest.getD 1 0
            if !isCont b2 then (RuneError, 1)
            else if sz ≤ 3 then ((p0 % 16) * 4096 + (b1 % 64) * 64 + b2 % 64, 3)
            else
              let b3 := rest.getD 2 0
              if !isCont b3 then (RuneError, 1)
              else ((p0 % 8) * 262144 + (b1 % 64) * 4096 + (b2 % 64) * 64 + b3 % 64, 4)

/-- Function `utf8.EncodeRune`: the UTF-8 encoding of `r`; surrogates and
values above `utf8.MaxRune` are encoded as `RuneError`. -/
def EncodeRune (r : Nat) : GoString :=
  if r ≤ 0x7F then [r]
  else if r ≤ 0x7FF then [0xC0 + r / 64, 0x80 + r % 64]
  else if r > 0x10FFFF ∨ (0xD800 ≤ r ∧ r ≤ 0xDFFF) then [0xEF, 0xBF, 0xBD]
  else if r ≤ 0xFFFF then [0xE0 + r / 4096, 0x80 + r / 64 % 64, 0x80 + r % 64]
  else [0xF0 + r / 262144, 0x80 + r / 4096 % 64, 0x80 + r / 64 % 64, 0x80 + r % 64]

/-- Function `utf8.ValidString`, by repeated decoding; `fuel` bounds the
number of runes and is the length of the string at the call site. -/
def validLoop : Nat → GoString → Bool
  | _, [] => true
  | 0, _ :: _ => false
  | fuel + 1, p0 :: rest =>
    let (r, size) := DecodeRune (p0 :: rest)
    if r = RuneError ∧ size = 1 then false
    else validLoop fuel ((p0 :: rest).drop size)

/-- Function `utf8.ValidString`. -/
def ValidString (s : GoString) : Bool := validLoop s.length s

/-! ## Package `encoding/json`: encoding -/

/-- The string `hex = "0123456789abcdef"` of `encoding/json`, indexed. -/
def hex (n : Nat) : Nat := if n < 10 then 48 + n else 87 + n

/-- Table `htmlSafeSet`: the ASCII bytes written unescaped when HTML
escaping is on (as it is for `json.Marshal`): everything from the space up,
except the double quote, the ampersand, the angle brackets and the
backslash. -/
def htmlSafeSet (b : Nat) : Bool :=
  decide (0x20 ≤ b ∧ b < 0x80 ∧ b ≠ 34 ∧ b ≠ 38 ∧ b ≠ 60 ∧ b ≠ 62 ∧ b ≠ 92)

/-- The escape `appendString` writes for an ASCII byte outside
`htmlSafeSet`. -/
def escapeByte (b : Nat) : GoString :=
  if b = 92 ∨ b = 34 then [92, b]
  else if b = 8 then [92, 98]
  else if b = 12 then [92, 102]
  else if b = 10 then [92, 110]
  else if b = 13 then [92, 114]
  else if b = 9 then [92, 116]
  else [92, 117, 48, 48, hex (b / 16), hex (b % 16)]

/-- The loop of `appendString` (`encoding/json/encode.go`), without the two
quotes.  ASCII bytes are copied or escaped; an invalid UTF-8 byte becomes the
six characters of the escape for U+FFFD; U+2028 and U+2029 are escaped; any
other rune is copied.  `fuel` bounds the iterations. -/
def appendStringLoop : Nat → GoString → GoString
  | _, [] => []
  | 0, _ :: _ => []
  | fuel + 1, b :: rest =>
    if b < 0x80 then
      (if htmlSafeSet b then [b] else escapeByte b) ++ appendStringLoop fuel rest
    else
      let (c, size) := DecodeRune ((b :: rest).take 4)
      if c = RuneError ∧ size = 1 then
        [92, 117, 102, 102, 102, 100] ++ appendStringLoop fuel rest
      else if c = 0x2028 ∨ c = 0x2029 then
        [92, 117, 50, 48, 50, hex (c % 16)] ++ appendStringLoop fuel ((b :: rest).drop size)
      else
        (b :: rest).take size ++ appendStringLoop fuel ((b :: rest).drop size)

/-- Function `appendString` with `escapeHTML = true`: `src` as a JSON string
literal. -/
def appendString (src : GoString) : GoString :=
  [34] ++ appendStringLoop src.length src ++ [34]

/-- The struct encoder for `Schedule`: the three fields in declaration order
under their `json` tags. -/
def encodeSchedule (s : Schedule) : GoString :=
  ascii "\x7b\"day\":" ++ appendString s.Day ++
  ascii ",\"start_fmt\":" ++ appendString s.StartFmt ++
  ascii ",\"end_fmt\":" ++ appendString s.EndFmt ++ ascii "\x7d"

/-- Go string comparison `a <= b`: bytewise lexicographic. -/
def strLE : GoString → GoString → Bool
  | [], _ => true
  | _ :: _, [] => false
  | a :: as, b :: bs => if a < b then true else if b < a then false else strLE as bs

/-- The entries of a map in the order `mapEncoder.encode` writes them:
sorted by key. -/
def sortedEntries (l : List (GoString × Schedule)) : List (GoString × Schedule) :=
  l.insertionSort fun a b => strLE a.1 b.1 = true

/-- One `key:value` member of the encoded map. -/
def encodeMember (e : GoString × Schedule) : GoString :=
  appendString e.1 ++ [58] ++ encodeSchedule e.2

/-- The members of the encoded map, separated by commas. -/
def encodeMembers : List (GoString × Schedule) → GoString
  | [] => []
  | [e] => encodeMember e
  | e :: es => encodeMember e ++ [44] ++ encodeMembers es

/-- Function `json.Marshal` on a `map[string]Schedule`: `null` for the nil
map, otherwise an object whose members are sorted by key.  It never fails on
this type. -/
def MarshalSchedules (m : ScheduleMap) : GoString :=
  match m with
  | none => ascii "null"
  | some l => [123] ++ encodeMembers (sortedEntries l) ++ [125]

/-- Function `json.Marshal` on an `EventMessage`.  It never fails on this
type. -/
def MarshalEventMessage (m : EventMessage) : GoString :=
  ascii "\x7b\"id\":" ++ appendString m.ID ++ ascii "\x7d"

/-! ## Package `encoding/json`: decoding

`json.Unmarshal` first checks that the whole input is one JSON value
(`checkValid`, driven by the scanner) and then stores the value into the
target.  Both passes are merged here into a parser that yields the parts of
the value the two target types can observe, followed by the typed store. -/

/-- A JSON value as far as decoding into `EventMessage` or
`map[string]Schedule` can tell: numbers, booleans and arrays only matter by
their kind; object members keep their unquoted key, in input order. -/
inductive JValue where
  | null : JValue
  | bool : JValue
  | number : JValue
  | string : GoString → JValue
  | array : JValue
  | object : List (GoString × JValue) → JValue

/-- Helper `isSpace` of the scanner. -/
def isSpace (c : Nat) : Bool := c == 32 || c == 9 || c == 13 || c == 10

/-- Drop leading JSON white space. -/
def skipSpace : GoString → GoString
  | [] => []
  | c :: rest => if isSpace c then skipSpace rest else c :: rest

/-- Constant `maxNestingDepth` of the scanner. -/
def maxNestingDepth : Nat := 10000

/-- The value of a hexadecimal digit, as read by `getu4`. -/
def hexval (c : Nat) : Option Nat :=
  if 48 ≤ c ∧ c ≤ 57 then some (c - 48)
  else if 97 ≤ c ∧ c ≤ 102 then some (c - 87)
  else if 65 ≤ c ∧ c ≤ 70 then some (c - 55)
  else none

/-- Helper `getu4` of `decode.go`: the code unit of a leading `\uXXXX`, or
`none` (Go returns -1) when the input does not start with one. -/
def getu4 (s : GoString) : Option Nat :=
  match s with
  | c0 :: c1 :: h1 :: h2 :: h3 :: h4 :: _ =>
    if c0 ≠ 92 ∨ c1 ≠ 117 then none
    else
      match hexval h1, hexval h2, hexval h3, hexval h4 with
      | some a, some b, some c, some d => some (((a * 16 + b) * 16 + c) * 16 + d)
      | _, _, _, _ => none
  | _ => none

/-- Function `utf16.IsSurrogate`. -/
def IsSurrogate (r : Nat) : Bool := decide (0xD800 ≤ r ∧ r < 0xE000)

/-- Function `utf16.DecodeRune` with the second unit possibly missing: the
code point of a surrogate pair, `RuneError` when the pair is not valid. -/
def utf16DecodeRune (r1 : Nat) (r2 : Option Nat) : Nat :=
  match r2 with
  | none => RuneError
  | some r2 =>
    if 0xD800 ≤ r1 ∧ r1 < 0xDC00 ∧ 0xDC00 ≤ r2 ∧ r2 < 0xE000 then
      (r1 - 0xD800) * 1024 + (r2 - 0xDC00) + 0x10000
    else RuneError

/-- The byte a two-character escape stands for (scanner state
`stateInStringEsc` and the matching cases of `unquoteBytes`); `u` is handled
apart. -/
def simpleEscape (e : Nat) : Option Nat :=
  if e = 34 ∨ e = 92 ∨ e = 47 then some e
  else if e = 98 then some 8
  else if e = 102 then some 12
  else if e = 110 then some 10
  else if e = 114 then some 13
  else if e = 116 then some 9
  else none

/-- The body of a string literal, the opening quote already consumed: the
scanner states `stateInString`, `stateInStringEsc`, `stateInStringEscU...`
together with `unquoteBytes`.  Returns the unquoted bytes and the input after
the closing quote.  Escapes are resolved, a `\u` surrogate pair becomes one
rune, a lone surrogate becomes U+FFFD, and raw bytes above 0x7F are decoded
and encoded again, which turns every invalid UTF-8 byte into U+FFFD. -/
def unquoteLoop : Nat → GoString → Option (GoString × GoString)
  | 0, _ => none
  | _ + 1, [] => none
  | fuel + 1, c :: rest =>
    if c = 34 then some ([], rest)
    else if c = 92 then
      match rest with
      | [] => none
      | e :: rest2 =>
        if e = 117 then
          match getu4 (c :: rest) with
          | none => none
          | some rr =>
            let after := rest.drop 5
            if IsSurrogate rr then
              let dec := utf16DecodeRune rr (getu4 after)
              if dec ≠ RuneError then
                (unquoteLoop fuel (after.drop 6)).map fun r => (EncodeRune dec ++ r.1, r.2)
              else
                (unquoteLoop fuel after).map fun r => (EncodeRune RuneError ++ r.1, r.2)
            else
              (unquoteLoop fuel after).map fun r => (EncodeRune rr ++ r.1, r.2)
        else
          match simpleEscape e with
          | none => none
          | some b => (unquoteLoop fuel rest2).map fun r => (b :: r.1, r.2)
    else if c < 32 then none
    else if c < 0x80 then (unquoteLoop fuel rest).map fun r => (c :: r.1, r.2)
    else
      let (rr, size) := DecodeRune (c :: rest)
      (unquoteLoop fuel ((c :: rest).drop size)).map fun r => (EncodeRune rr ++ r.1, r.2)

/-- A string literal whose opening quote has been consumed. -/
def unquote (s : GoString) : Option (GoString × GoString) := unquoteLoop (s.length + 1) s

/-- Require at least one decimal digit and drop the whole run. -/
def digits1 (s : GoString) : Option GoString :=
  if digitRun s = 0 then none else some (s.drop (digitRun s))

/-- A number literal (scanner states `stateNeg`, `state0`, `state1`,
`stateDot`, `stateDot0`, `stateE`, `stateESign`, `stateE0`): the input after
the literal. -/
def scanNumber (s : GoString) : Option GoString :=
  let s := match s with
    | 45 :: rest => rest
    | _ => s
  let afterInt : Option GoString :=
    match s with
    | 48 :: rest => some rest
    | _ => digits1 s
  match afterInt with
  | none => none
  | some s =>
    let afterFrac : Option GoString :=
      match s with
      | 46 :: rest => digits1 rest
      | _ => some s
    match afterFrac with
    | none => none
    | some s =>
      match s with
      | c :: rest =>
        if c = 101 ∨ c = 69 then
          match rest with
          | d :: rest2 => if d = 43 ∨ d = 45 then digits1 rest2 else digits1 rest
          | [] => none
        else some s
      | [] => some s

/-- Strip the literal `lit` from the front of `s`. -/
def expect (lit : GoString) (s : GoString) : Option GoString :=
  if s.take lit.length = lit then some (s.drop lit.length) else none

mutual
/-- One JSON value with optional leading white space, at nesting depth
`depth`; returns the value and the rest of the input. -/
def parseValue : Nat → Nat → GoString → Option (JValue × GoString)
  | 0, _, _ => none
  | fuel + 1, depth, s =>
    match skipSpace s with
    | [] => none
    | c :: rest =>
      if c = 123 then
        if depth + 1 > maxNestingDepth then none
        else
          match skipSpace rest with
          | [] => none
          | d :: rest2 =>
            if d = 125 then some (JValue.object [], rest2)
            else (parseMembers fuel (depth + 1) (d :: rest2)).map fun r => (JValue.object r.1, r.2)
      else if c = 91 then
        if depth + 1 > maxNestingDepth then none
        else
          match skipSpace rest with
          | [] => none
          | d :: rest2 =>
            if d = 93 then some (JValue.array, rest2)
            else (parseElements fuel (depth + 1) (d :: rest2)).map fun r => (JValue.array, r)
      else if c = 34 then (unquote rest).map fun r => (JValue.string r.1, r.2)
      else if c = 45 ∨ (48 ≤ c ∧ c ≤ 57) then (scanNumber (c :: rest)).map fun r => (JValue.number, r)
      else if c = 116 then (expect [114, 117, 101] rest).map fun r => (JValue.bool, r)
      else if c = 102 then (expect [97, 108, 115, 101] rest).map fun r => (JValue.bool, r)
      else if c = 110 then (expect [117, 108, 108] rest).map fun r => (JValue.null, r)
      else none
/-- The members of an object after the opening brace or a comma (leading
white space already skipped after the brace), up to and including the
closing brace. -/
def parseMembers : Nat → Nat → GoString → Option (List (GoString × JValue) × GoString)
  | 0, _, _ => none
  | fuel + 1, depth, s =>
    match skipSpace s with
    | [] => none
    | q :: r =>
      if q ≠ 34 then none
      else
        match unquote r with
        | none => none
        | some (key, r1) =>
          match skipSpace r1 with
          | [] => none
          | colon :: r2 =>
            if colon ≠ 58 then none
            else
              match parseValue fuel depth r2 with
              | none => none
              | some (v, r3) =>
                match skipSpace r3 with
                | [] => none
                | sep :: r4 =>
                  if sep = 44 then
                    (parseMembers fuel depth r4).map fun m => ((key, v) :: m.1, m.2)
                  else if sep = 125 then some ([(key, v)], r4)
                  else none
/-- The elements of an array after the opening bracket or a comma, up to and
including the closing bracket; returns the rest of the input. -/
def parseElements : Nat → Nat → GoString → Option GoString
  | 0, _, _ => none
  | fuel + 1, depth, s =>
    match parseValue fuel depth s with
    | none => none
    | some (_, r) =>
      match skipSpace r with
      | [] => none
      | sep :: r2 =>
        if sep = 44 then parseElements fuel depth r2
        else if sep = 93 then some r2
        else none
end

/-- Function `checkValid` merged with the scan of `decodeState`: the input
is one JSON value surrounded by optional white space.  A value that spans
`c` bytes needs at most `c` units of fuel, so the fuel `data.length + 1` is
never used up. -/
def parseJSON (data : GoString) : Option JValue :=
  match parseValue (data.length + 1) 0 data with
  | none => none
  | some (v, rest) => if skipSpace rest = [] then some v else none

/-- Function `foldName` of `encoding/json` as far as it can produce ASCII:
ASCII letters are upper-cased, and the two non-ASCII runes whose simple case
folding reaches ASCII, U+017F (long s) and U+212A (Kelvin sign), become `S`
and `K`.  Other bytes are kept; they never equal a byte of a folded ASCII
field name. -/
def foldName : GoString → GoString
  | [] => []
  | 0xC5 :: 0xBF :: rest => 83 :: foldName rest
  | 0xE2 :: 0x84 :: 0xAA :: rest => 75 :: foldName rest
  | c :: rest => (if 97 ≤ c ∧ c ≤ 122 then c - 32 else c) :: foldName rest

/-- Does the object key `key` select the struct field tagged `name`: an
exact match, or else a match of the folded names. -/
def fieldMatches (name key : GoString) : Bool :=
  key == name || foldName key == foldName name

/-- Store of a JSON value into a Go `string` field (`literalStore` and the
kind checks of `d.array` and `d.object`): a string is assigned, `null` leaves
the field as it is, any other value is an `UnmarshalTypeError`. -/
def storeString (old : GoString) (v : JValue) : Option GoString :=
  match v with
  | .string s => some s
  | .null => some old
  | _ => none

/-- One member of an object stored into a `Schedule`: the first field whose
name matches the key receives the value; a key that matches no field is
skipped. -/
def storeScheduleField (sch : Schedule) (kv : GoString × JValue) : Option Schedule :=
  if fieldMatches (ascii "day") kv.1 then
    (storeString sch.Day kv.2).map fun s => { sch with Day := s }
  else if fieldMatches (ascii "start_fmt") kv.1 then
    (storeString sch.StartFmt kv.2).map fun s => { sch with StartFmt := s }
  else if fieldMatches (ascii "end_fmt") kv.1 then
    (storeString sch.EndFmt kv.2).map fun s => { sch with EndFmt := s }
  else some sch

/-- Store of a JSON value into a zero `Schedule`, the element of a map: an
object fills the fields member by member, `null` leaves the zero value, any
other value is an `UnmarshalTypeError`.  `none` stands for a non-nil error
of `Unmarshal`. -/
def storeSchedule (v : JValue) : Option Schedule :=
  match v with
  | .object ms => ms.foldlM storeScheduleField ⟨[], [], []⟩
  | .null => some ⟨[], [], []⟩
  | _ => none

/-- Store of a JSON value into a nil `map[string]Schedule`: `null` leaves
the map nil; an object allocates the map and sets `m[key] = elem` member by
member, a later duplicate key overwriting an earlier one. -/
def storeScheduleMap (v : JValue) : Option ScheduleMap :=
  match v with
  | .object ms =>
    (ms.foldlM (fun m kv => (storeSchedule kv.2).map fun e => mapSet m kv.1 e) []).map some
  | .null => some none
  | _ => none

/-- One member of an object stored into an `EventMessage`. -/
def storeEventMessageField (m : EventMessage) (kv : GoString × JValue) : Option EventMessage :=
  if fieldMatches (ascii "id") kv.1 then
    (storeString m.ID kv.2).map fun s => { m with ID := s }
  else some m

/-- Store of a JSON value into a zero `EventMessage`. -/
def storeEventMessage (v : JValue) : Option EventMessage :=
  match v with
  | .object ms => ms.foldlM storeEventMessageField ⟨[]⟩
  | .null => some ⟨[]⟩
  | _ => none

/-- Call `json.Unmarshal(bytes, &emsg)` with `emsg` a zero `EventMessage`;
`none` stands for a non-nil error. -/
def UnmarshalEventMessage (data : GoString) : Option EventMessage :=
  match parseJSON data with
  | none => none
  | some v => storeEventMessage v

/-- Call `json.Unmarshal([]byte(str), &schedules)` with `schedules` a nil
`map[string]Schedule`; `none` stands for a non-nil error. -/
def UnmarshalSchedules (data : GoString) : Option ScheduleMap :=
  match parseJSON data with
  | none => none
  | some v => storeScheduleMap v

/-! ## Redis through `redigo` -/

/-- The commands the scheduler sends with `Conn.Do`, with their arguments as
they go over the wire. -/
inductive Command where
  | HGET (key field : GoString)
  | HSET (key field value : GoString)
  | PUBLISH (channel message : GoString)
  deriving DecidableEq, Repr

/-- The state of the Redis server the scheduler depends on: the value of
every field of every hash. -/
structure Store where
  hget : GoString → GoString → Option GoString

/-- The store after `HSET key field value`. -/
def Store.hset (st : Store) (key field value : GoString) : Store :=
  ⟨fun k f => if k = key ∧ f = field then some value else st.hget k f⟩

/-- A connection taken from the pool (`redis.Conn`).  `fails cmd` tells
whether `Do` returns a non-nil error for `cmd` on this connection; a failed
command does not change the store. -/
structure Conn where
  fails : Command → Bool

/-- The replies to the three commands. -/
inductive Reply where
  | nil
  | bulk (s : GoString)
  | int (n : Nat)
  deriving DecidableEq, Repr

/-- Method `Conn.Do`: the reply (`none` for a non-nil error) and the store
afterwards.  `HGET` answers the field or nil, `HSET` writes the field and
answers the number of fields added, `PUBLISH` leaves the hashes alone (its
reply, the number of receivers, is discarded by the scheduler and left at
zero here). -/
def Conn.Do (c : Conn) (st : Store) (cmd : Command) : Option Reply × Store :=
  if c.fails cmd then (none, st)
  else
    match cmd with
    | .HGET k f =>
      match st.hget k f with
      | none => (some .nil, st)
      | some v => (some (.bulk v), st)
    | .HSET k f v => (some (.int (if (st.hget k f).isSome then 0 else 1)), st.hset k f v)
    | .PUBLISH _ _ => (some (.int 0), st)

/-- How `redigo` writes a `bool` argument. -/
def boolArg (b : Bool) : GoString := if b then ascii "1" else ascii "0"

/-- Function `strconv.ParseBool`. -/
def ParseBool (s : GoString) : Option Bool :=
  if s = ascii "1" ∨ s = ascii "t" ∨ s = ascii "T" ∨ s = ascii "TRUE" ∨ s = ascii "true"
      ∨ s = ascii "True" then some true
  else if s = ascii "0" ∨ s = ascii "f" ∨ s = ascii "F" ∨ s = ascii "FALSE" ∨ s = ascii "false"
      ∨ s = ascii "False" then some false
  else none

/-- Helper `redis.String(reply, err)`; `none` stands for a non-nil error,
which includes `redis.ErrNil` for a nil reply. -/
def redisString (r : Option Reply) : Option GoString :=
  match r with
  | some (.bulk s) => some s
  | _ => none

/-- Helper `redis.Bool(reply, err)`; `none` stands for a non-nil error,
which includes `redis.ErrNil` for a nil reply. -/
def redisBool (r : Option Reply) : Option Bool :=
  match r with
  | some (.bulk s) => ParseBool s
  | some (.int n) => some (n != 0)
  | _ => none

/-! ## The scheduler -/

/-- What the scheduler does to the outside world, in order: a command issued
on a connection (whether or not it fails), the deferred `time.Sleep`, a call
of one of the two handlers. -/
inductive Effect where
  | Do (cmd : Command)
  | Sleep (d : Nat)
  | onStart (event : Event)
  | onFinish (event : Event)
  deriving DecidableEq, Repr

/-- Struct `MaintenanceScheduler`.  A handler answers `true` when it returns
a non-nil error.  The fields `debug` (logging only), `echan` and `schan` (used
by `Run` and `Stop`) are left out. -/
structure MaintenanceScheduler where
  hkey : GoString
  onStart : Event → Bool
  onFinish : Event → Bool
  sleepDuration : Nat

/-- Key `fmt.Sprintf("%s_flags", m.hkey)`. -/
def MaintenanceScheduler.fkey (m : MaintenanceScheduler) : GoString := m.hkey ++ ascii "_flags"

/-- Key `fmt.Sprintf("%s_schedules", m.hkey)`. -/
def MaintenanceScheduler.skey (m : MaintenanceScheduler) : GoString :=
  m.hkey ++ ascii "_schedules"

/-- Channel `fmt.Sprintf("%s_channel", m.hkey)`. -/
def MaintenanceScheduler.channel (m : MaintenanceScheduler) : GoString :=
  m.hkey ++ ascii "_channel"

/-- Method `MaintenanceScheduler.Schedule` on the connection `c`: the
returned error (`none` for nil), the store afterwards and the commands
issued.  `json.Marshal` cannot fail on the two types involved, so the two
marshalling error returns are not reachable. -/
def MaintenanceScheduler.Schedule (m : MaintenanceScheduler) (c : Conn) (st : Store) (id : GoString)
    (schedules : ScheduleMap) : Option String × Store × List Effect :=
  let bytes := MarshalSchedules schedules
  let mbytes := MarshalEventMessage ⟨id⟩
  let setFlag := Command.HSET m.fkey id (boolArg false)
  match c.Do st setFlag with
  | (none, st) => (some "fail to set new flag data", st, [.Do setFlag])
  | (some _, st) =>
    let setSchedule := Command.HSET m.skey id bytes
    match c.Do st setSchedule with
    | (none, st) => (some "fail to set new schedule data", st, [.Do setFlag, .Do setSchedule])
    | (some _, st) =>
      let publish := Command.PUBLISH m.channel mbytes
      match c.Do st publish with
      | (none, st) =>
        (some "fail to set new schedule data", st, [.Do setFlag, .Do setSchedule, .Do publish])
      | (some _, st) => (none, st, [.Do setFlag, .Do setSchedule, .Do publish])

/-- The body of `process` after the two `defer` statements (the schedule read
up to the final return): the store afterwards and the effects in order. -/
def evaluate (m : MaintenanceScheduler) (now : Now) (rc : Conn) (st : Store)
    (emsg : EventMessage) : Store × List Effect :=
  let getSchedule := Command.HGET m.skey emsg.ID
  match rc.Do st getSchedule with
  | (r, st) =>
    match redisString r with
    | none => (st, [.Do getSchedule])
    | some str =>
      if str = [] then (st, [.Do getSchedule])
      else
        match UnmarshalSchedules str with
        | none => (st, [.Do getSchedule])
        | some schedules =>
          let event : Event := ⟨emsg.ID, schedules⟩
          match between event now with
          | .error _ => (st, [.Do getSchedule])
          | .ok maint =>
            let getFlag := Command.HGET m.fkey emsg.ID
            match rc.Do st getFlag with
            | (r, st) =>
              match redisBool r with
              | none => (st, [.Do getSchedule, .Do getFlag])
              | some flag =>
                if maint then
                  if !flag then
                    let setFlag := Command.HSET m.fkey emsg.ID (boolArg true)
                    match rc.Do st setFlag with
                    | (none, st) => (st, [.Do getSchedule, .Do getFlag, .Do setFlag])
                    | (some _, st) =>
                      if m.onStart event then
                        (st, [.Do getSchedule, .Do getFlag, .Do setFlag, .onStart event])
                      else
                        (st, [.Do getSchedule, .Do getFlag, .Do setFlag, .onStart event])
                  else (st, [.Do getSchedule, .Do getFlag])
                else if flag then
                  let setFlag := Command.HSET m.fkey emsg.ID (boolArg false)
                  match rc.Do st setFlag with
                  | (none, st) => (st, [.Do getSchedule, .Do getFlag, .Do setFlag])
                  | (some _, st) =>
                    if m.onFinish event then
                      (st, [.Do getSchedule, .Do getFlag, .Do setFlag, .onFinish event])
                    else
                      (st, [.Do getSchedule, .Do getFlag, .Do setFlag, .onFinish event])
                else (st, [.Do getSchedule, .Do getFlag])

/-- Method `MaintenanceScheduler.process` at the instant `now`, with `rc` the
result of `m.rclt.gconn()` (`none` for a nil connection).  The two deferred
calls are registered once the message is decoded and the connection is there,
so they run on every return of the body: first the sleep, then the `PUBLISH`
of the received bytes. -/
def process (m : MaintenanceScheduler) (now : Now) (rc : Option Conn) (st : Store)
    (bytes : GoString) : Store × List Effect :=
  match UnmarshalEventMessage bytes with
  | none => (st, [])
  | some emsg =>
    match rc with
    | none => (st, [])
    | some rc =>
      match evaluate m now rc st emsg with
      | (st, trace) =>
        let publish := Command.PUBLISH m.channel bytes
        ((rc.Do st publish).2, trace ++ [.Sleep m.sleepDuration, .Do publish])

/-! ## Reading the store -/

/-- The stored flag of `id` as `process` reads it: `HGET` on the flags hash
through `redis.Bool` on a connection that does not fail. -/
def readFlag (m : MaintenanceScheduler) (st : Store) (id : GoString) : Option Bool :=
  redisBool ((Conn.mk fun _ => false).Do st (.HGET m.fkey id)).1

/-- The stored schedule of `id` as `process` reads it: `HGET` on the
schedules hash through `redis.String`, the empty-string check and
`json.Unmarshal`, on a connection that does not fail. -/
def readSchedule (m : MaintenanceScheduler) (st : Store) (id : GoString) : Option ScheduleMap :=
  match redisString ((Conn.mk fun _ => false).Do st (.HGET m.skey id)).1 with
  | none => none
  | some str => if str = [] then none else UnmarshalSchedules str

/-- A connection on which every command succeeds. -/
def Conn.ok (c : Conn) : Prop := ∀ cmd, c.fails cmd = false

/-! ## The sample driver (`sample/main.go`) -/

/-- The scheduler `sample/main.go` configures: context name
`product_maintenance`, two handlers that log and return nil, a sleep of two
seconds. -/
def sampleScheduler : MaintenanceScheduler :=
  ⟨ascii "product_maintenance", fun _ => false, fun _ => false, 2000000000⟩

/-- The schedule set `sample/main.go` registers: Wednesday from 15:20:00 to
15:21:00. -/
def sampleSchedules : ScheduleMap :=
  CreateSchedules [⟨ascii "wednesday", ascii "15:20:00", ascii "15:21:00"⟩]

/-- A connection on which no command fails. -/
def goodConn : Conn := ⟨fun _ => false⟩

/-- A Redis server without any hash. -/
def emptyStore : Store := ⟨fun _ _ => none⟩

/-- The store after `sample/main.go` has registered `product_a` and
`product_b`. -/
def sampleStore : Store :=
  (sampleScheduler.Schedule goodConn
    (sampleScheduler.Schedule goodConn emptyStore (ascii "product_a") sampleSchedules).2.1
    (ascii "product_b") sampleSchedules).2.1

/-- The message published for `product_a`. -/
def sampleMessage : GoString := MarshalEventMessage ⟨ascii "product_a"⟩

/-- The sample scheduler with two handlers that always return an error. -/
def failingScheduler : MaintenanceScheduler :=
  { sampleScheduler with onStart := fun _ => true, onFinish := fun _ => true }

/-! ## Auxiliary notions for the properties -/

/-- The leading byte and the second byte of a three-byte UTF-8 sequence. -/
def lead3 (p0 b1 : Nat) : Prop :=
  0xE0 ≤ p0 ∧ p0 ≤ 0xEF ∧ 0x80 ≤ b1 ∧ b1 ≤ 0xBF ∧ (p0 = 0xE0 → 0xA0 ≤ b1) ∧ (p0 = 0xED → b1 ≤ 0x9F)

/-- The leading byte and the second byte of a four-byte UTF-8 sequence. -/
def lead4 (p0 b1 : Nat) : Prop :=
  0xF0 ≤ p0 ∧ p0 ≤ 0xF4 ∧ 0x80 ≤ b1 ∧ b1 ≤ 0xBF ∧ (p0 = 0xF0 → 0x90 ≤ b1) ∧ (p0 = 0xF4 → b1 ≤ 0x8F)

/-- The JSON value `encodeSchedule` writes for a schedule. -/
def scheduleValue (s : Schedule) : JValue :=
  .object [(ascii "day", .string s.Day), (ascii "start_fmt", .string s.StartFmt),
    (ascii "end_fmt", .string s.EndFmt)]

/-- A Go map has one entry per key: the keys of the entries are pairwise
distinct. -/
def distinctKeys (m : ScheduleMap) : Prop :=
  match m with
  | none => True
  | some l => (l.map Prod.fst).Nodup

/-- Every key and every field of every entry is valid UTF-8. -/
def validStrings (m : ScheduleMap) : Prop :=
  match m with
  | none => True
  | some l => ∀ e ∈ l, ValidString e.1 = true ∧ ValidString e.2.Day = true ∧
      ValidString e.2.StartFmt = true ∧ ValidString e.2.EndFmt = true

/-- The object member `mapEncoder.encode` writes for an entry of the map. -/
def memberValue (e : GoString × Schedule) : GoString × JValue := (e.1, scheduleValue e.2)

/-! # Properties

## Parsing the clock -/

theorem leadZero_digits (n : Nat) (h : n < 100) : leadZero n = [48 + n / 10, 48 + n % 10] := by
  interval_cases n <;> rfl

theorem getnum_two (a b : Nat) (rest : GoString) (fixed : Bool) (ha : a ≤ 9) (hb : b ≤ 9) :
    getnum ((48 + a) :: (48 + b) :: rest) fixed = some (a * 10 + b, rest) := by
  simp [getnum, isDigit]
  omega

theorem Parse_clock (h m s : Nat) (hh : h < 24) (hm : m < 60) (hs : s < 60) :
    Parse (leadZero h ++ ascii ":" ++ leadZero m ++ ascii ":" ++ leadZero s) = some (Date h m s 0) := by
  rw [leadZero_digits h (by omega), leadZero_digits m (by omega), leadZero_digits s (by omega)]
  have e : ([48 + h / 10, 48 + h % 10] ++ ascii ":" ++ [48 + m / 10, 48 + m % 10] ++ ascii ":" ++ [48 + s / 10, 48 + s % 10] : GoString)
      = (48 + h / 10) :: (48 + h % 10) :: 58 :: (48 + m / 10) :: (48 + m % 10) :: 58 :: (48 + s / 10) :: (48 + s % 10) :: [] := rfl
  rw [e]
  unfold Parse
  rw [getnum_two _ _ _ _ (by omega) (by omega)]
  have h1 : h / 10 * 10 + h % 10 = h := by omega
  have h2 : m / 10 * 10 + m % 10 = m := by omega
  have h3 : s / 10 * 10 + s % 10 = s := by omega
  simp only [h1, skip]
  rw [if_neg (by omega)]
  simp only [ne_eq, not_true_eq_false, if_false]
  rw [getnum_two _ _ _ _ (by omega) (by omega)]
  simp only [h2]
  rw [if_neg (by omega)]
  simp only [ne_eq, not_true_eq_false, if_false]
  rw [getnum_two _ _ _ _ (by omega) (by omega)]
  simp only [h3]
  rw [if_neg (by omega)]
  simp

theorem Do_fail (rc : Conn) (st : Store) (cmd : Command) (h : rc.fails cmd = true) :
    rc.Do st cmd = (none, st) := by
  simp [Conn.Do, h]

theorem Do_HGET (rc : Conn) (st : Store) (k f : GoString)
    (h : rc.fails (.HGET k f) = false) :
    rc.Do st (.HGET k f) = (((Conn.mk fun _ => false).Do st (.HGET k f)).1, st) := by
  simp only [Conn.Do, h]
  cases st.hget k f <;> rfl

theorem Do_PUBLISH_store (rc : Conn) (st : Store) (k f : GoString) :
    (rc.Do st (.PUBLISH k f)).2 = st := by
  simp only [Conn.Do]
  split <;> rfl

theorem Do_HSET (rc : Conn) (st : Store) (k f v : GoString)
    (h : rc.fails (.HSET k f v) = false) :
    rc.Do st (.HSET k f v) = (some (.int (if (st.hget k f).isSome then 0 else 1)), st.hset k f v) := by
  simp [Conn.Do, h]

/-- The decision table of the body of `process`: which reads fail, what they
return, and the resulting store and effects. -/
theorem evaluate_eq (m : MaintenanceScheduler) (now : Now) (rc : Conn) (st : Store)
    (emsg : EventMessage) :
    evaluate m now rc st emsg =
      if rc.fails (.HGET m.skey emsg.ID) then (st, [.Do (.HGET m.skey emsg.ID)])
      else
        match readSchedule m st emsg.ID with
        | none => (st, [.Do (.HGET m.skey emsg.ID)])
        | some S =>
          match between ⟨emsg.ID, S⟩ now with
          | .error _ => (st, [.Do (.HGET m.skey emsg.ID)])
          | .ok w =>
            if rc.fails (.HGET m.fkey emsg.ID) then
              (st, [.Do (.HGET m.skey emsg.ID), .Do (.HGET m.fkey emsg.ID)])
            else
              match readFlag m st emsg.ID with
              | none => (st, [.Do (.HGET m.skey emsg.ID), .Do (.HGET m.fkey emsg.ID)])
              | some f =>
                if w = f then (st, [.Do (.HGET m.skey emsg.ID), .Do (.HGET m.fkey emsg.ID)])
                else if rc.fails (.HSET m.fkey emsg.ID (boolArg w)) then
                  (st, [.Do (.HGET m.skey emsg.ID), .Do (.HGET m.fkey emsg.ID),
                        .Do (.HSET m.fkey emsg.ID (boolArg w))])
                else
                  (st.hset m.fkey emsg.ID (boolArg w),
                    [.Do (.HGET m.skey emsg.ID), .Do (.HGET m.fkey emsg.ID),
                     .Do (.HSET m.fkey emsg.ID (boolArg w)),
                     if w then .onStart ⟨emsg.ID, S⟩ else .onFinish ⟨emsg.ID, S⟩]) := by
  unfold evaluate
  dsimp only
  cases h1 : rc.fails (.HGET m.skey emsg.ID) with
  | true => rw [Do_fail rc st _ h1]; simp [redisString]
  | false =>
    rw [Do_HGET rc st _ _ h1]
    simp only [Bool.false_eq_true, if_false]
    unfold readSchedule
    cases hr : redisString ((Conn.mk fun _ => false).Do st (.HGET m.skey emsg.ID)).1 with
    | none => rfl
    | some str =>
      simp only
      by_cases hstr : str = []
      · simp [hstr]
      · simp only [hstr, if_false]
        cases hS : UnmarshalSchedules str with
        | none => rfl
        | some S =>
          simp only
          cases hb : between ⟨emsg.ID, S⟩ now with
          | error e => rfl
          | ok w =>
            simp only
            cases h2 : rc.fails (.HGET m.fkey emsg.ID) with
            | true => rw [Do_fail rc st _ h2]; simp [redisBool]
            | false =>
              rw [Do_HGET rc st _ _ h2]
              simp only [Bool.false_eq_true, if_false]
              unfold readFlag
              cases hf : redisBool ((Conn.mk fun _ => false).Do st (.HGET m.fkey emsg.ID)).1 with
              | none => rfl
              | some f =>
                simp only
                cases hfail : rc.fails (.HSET m.fkey emsg.ID (boolArg w))
                · cases w <;> cases f <;> simp [Do_HSET, hfail]
                · cases w <;> cases f <;> simp [Do_fail, hfail]

theorem hset_same (st : Store) (k f v : GoString) : (st.hset k f v).hget k f = some v := by
  simp [Store.hset]

theorem hset_other (st : Store) (k f v k' f' : GoString) (h : ¬ (k' = k ∧ f' = f)) :
    (st.hset k f v).hget k' f' = st.hget k' f' := by
  simp only [Store.hset]
  rw [if_neg h]

theorem fkey_ne_skey (m : MaintenanceScheduler) : m.skey ≠ m.fkey := by
  intro h
  have := congrArg List.length h
  simp [MaintenanceScheduler.skey, MaintenanceScheduler.fkey, ascii] at this

theorem ParseBool_boolArg (b : Bool) : ParseBool (boolArg b) = some b := by
  cases b <;> decide

theorem readFlag_eq (m : MaintenanceScheduler) (st : Store) (id : GoString) :
    readFlag m st id = (st.hget m.fkey id).bind ParseBool := by
  simp only [readFlag, Conn.Do]
  cases st.hget m.fkey id <;> rfl

theorem readSchedule_eq (m : MaintenanceScheduler) (st : Store) (id : GoString) :
    readSchedule m st id =
      (st.hget m.skey id).bind fun str => if str = [] then none else UnmarshalSchedules str := by
  simp only [readSchedule, Conn.Do]
  cases st.hget m.skey id <;> rfl

theorem readFlag_hset (m : MaintenanceScheduler) (st : Store) (id : GoString) (b : Bool) :
    readFlag m (st.hset m.fkey id (boolArg b)) id = some b := by
  rw [readFlag_eq, hset_same]
  exact ParseBool_boolArg b

theorem readSchedule_hset_flag (m : MaintenanceScheduler) (st : Store) (id id' v : GoString) :
    readSchedule m (st.hset m.fkey id v) id' = readSchedule m st id' := by
  rw [readSchedule_eq, readSchedule_eq, hset_other]
  intro h
  exact fkey_ne_skey m h.1

theorem process_eq (m : MaintenanceScheduler) (now : Now) (rc : Conn) (st : Store)
    (bytes : GoString) (emsg : EventMessage) (h : UnmarshalEventMessage bytes = some emsg) :
    process m now (some rc) st bytes =
      ((evaluate m now rc st emsg).1,
        (evaluate m now rc st emsg).2 ++ [.Sleep m.sleepDuration, .Do (.PUBLISH m.channel bytes)]) := by
  simp only [process, h, Do_PUBLISH_store]

/-- The result of `between` when today has an entry whose two times parse. -/
theorem between_eq (S : ScheduleMap) (id : GoString) (now : Now) (hv : now.Valid)
    (sch : Schedule) (stime etime : Time)
    (hget : mapGet S (ToLower now.weekday.String) = some sch)
    (hs : Parse sch.StartFmt = some stime) (he : Parse sch.EndFmt = some etime) :
    between ⟨id, S⟩ now =
      .ok (decide (stime.ns < (Date now.hh now.mm now.ss 0).ns ∧
                    (Date now.hh now.mm now.ss 0).ns < etime.ns)) := by
  obtain ⟨h1, h2, h3⟩ := hv
  have hnow := Parse_clock now.hh now.mm now.ss h1 h2 h3
  simp only [between, hnow, hget, hs, he, Time.After, Time.Before]
  by_cases c1 : stime.ns < (Date now.hh now.mm now.ss 0).ns <;>
    by_cases c2 : (Date now.hh now.mm now.ss 0).ns < etime.ns <;> simp [c1, c2]

/-- The result of `between` when today has no entry. -/
theorem between_absent (S : ScheduleMap) (id : GoString) (now : Now) (hv : now.Valid)
    (hget : mapGet S (ToLower now.weekday.String) = none) :
    between ⟨id, S⟩ now = .ok false := by
  obtain ⟨h1, h2, h3⟩ := hv
  have hnow := Parse_clock now.hh now.mm now.ss h1 h2 h3
  simp only [between, hnow, hget]

/-- C1. Window matching.  For every schedule set, every weekday and every
second-resolution time of day: if the set has an entry under the lower-cased
weekday name whose start and end parse, `between` returns, without error,
`true` exactly when start < t < end, hence `false` at t = start and at
t = end; if the set has no entry under that name, `between` returns `false`
without error. -/
theorem between_window (S : ScheduleMap) (id : GoString) (now : Now) (hv : now.Valid) :
    (∀ sch stime etime,
        mapGet S (ToLower now.weekday.String) = some sch →
        Parse sch.StartFmt = some stime → Parse sch.EndFmt = some etime →
        between ⟨id, S⟩ now =
            .ok (decide (stime.ns < (Date now.hh now.mm now.ss 0).ns ∧
                          (Date now.hh now.mm now.ss 0).ns < etime.ns)) ∧
        (Date now.hh now.mm now.ss 0 = stime → between ⟨id, S⟩ now = .ok false) ∧
        (Date now.hh now.mm now.ss 0 = etime → between ⟨id, S⟩ now = .ok false)) ∧
    (mapGet S (ToLower now.weekday.String) = none → between ⟨id, S⟩ now = .ok false) := by
  refine ⟨fun sch stime etime hget hs he =>
    ⟨between_eq S id now hv sch stime etime hget hs he, ?_, ?_⟩, between_absent S id now hv⟩
  · intro e
    rw [between_eq S id now hv sch stime etime hget hs he, e]
    simp
  · intro e
    rw [between_eq S id now hv sch stime etime hget hs he, e]
    simp

/-- C1, on the sample schedule: Wednesday 15:20:30 lies in the window
15:20:00 to 15:21:00. -/
theorem between_window_witness :
    Now.Valid ⟨.Wednesday, 15, 20, 30⟩ ∧
    between ⟨ascii "product_a", sampleSchedules⟩ ⟨.Wednesday, 15, 20, 30⟩ = .ok true :=
  ⟨⟨by decide, by decide, by decide⟩,
   ((between_window sampleSchedules (ascii "product_a") ⟨.Wednesday, 15, 20, 30⟩
      ⟨by decide, by decide, by decide⟩).1
      ⟨ascii "wednesday", ascii "15:20:00", ascii "15:21:00"⟩ ⟨55200000000000⟩ ⟨55260000000000⟩
      rfl rfl rfl).1⟩

/-! ## The transition evaluator -/

/-- The outcome of `process` on an edge when no command fails. -/
theorem process_edge (m : MaintenanceScheduler) (now : Now) (rc : Conn) (st : Store)
    (bytes id : GoString) (S : ScheduleMap) (w : Bool)
    (hmsg : UnmarshalEventMessage bytes = some ⟨id⟩)
    (h1 : rc.fails (.HGET m.skey id) = false) (h2 : rc.fails (.HGET m.fkey id) = false)
    (h3 : rc.fails (.HSET m.fkey id (boolArg w)) = false)
    (hS : readSchedule m st id = some S) (hb : between ⟨id, S⟩ now = .ok w)
    (hf : readFlag m st id = some (!w)) :
    process m now (some rc) st bytes =
      (st.hset m.fkey id (boolArg w),
        [.Do (.HGET m.skey id), .Do (.HGET m.fkey id), .Do (.HSET m.fkey id (boolArg w)),
         if w then .onStart ⟨id, S⟩ else .onFinish ⟨id, S⟩,
         .Sleep m.sleepDuration, .Do (.PUBLISH m.channel bytes)]) := by
  rw [process_eq m now rc st bytes ⟨id⟩ hmsg, evaluate_eq]
  simp only [h1, h2, h3, hS, hb, hf]
  cases w <;> simp

/-- C2. Edge-triggered callbacks.  In an evaluation of a well-formed message
for `id` in which every store operation succeeds: on a rising edge (`between`
true, stored flag false) the flag of `id` is written true, `onStart` is called
exactly once, with the event made of `id` and its stored schedules, and
`onFinish` is not called; on a falling edge (`between` false, stored flag
true) the flag is written false, `onFinish` is called exactly once and
`onStart` is not called. -/
theorem edge_triggered_callbacks (m : MaintenanceScheduler) (now : Now) (rc : Conn)
    (st : Store) (bytes id : GoString) (S : ScheduleMap)
    (hmsg : UnmarshalEventMessage bytes = some ⟨id⟩) (hok : rc.ok)
    (hS : readSchedule m st id = some S) :
    (between ⟨id, S⟩ now = .ok true → readFlag m st id = some false →
      Effect.Do (.HSET m.fkey id (boolArg true)) ∈ (process m now (some rc) st bytes).2 ∧
      readFlag m (process m now (some rc) st bytes).1 id = some true ∧
      (process m now (some rc) st bytes).2.count (.onStart ⟨id, S⟩) = 1 ∧
      (∀ e, Effect.onStart e ∈ (process m now (some rc) st bytes).2 → e = ⟨id, S⟩) ∧
      (∀ e, Effect.onFinish e ∉ (process m now (some rc) st bytes).2)) ∧
    (between ⟨id, S⟩ now = .ok false → readFlag m st id = some true →
      Effect.Do (.HSET m.fkey id (boolArg false)) ∈ (process m now (some rc) st bytes).2 ∧
      readFlag m (process m now (some rc) st bytes).1 id = some false ∧
      (process m now (some rc) st bytes).2.count (.onFinish ⟨id, S⟩) = 1 ∧
      (∀ e, Effect.onFinish e ∈ (process m now (some rc) st bytes).2 → e = ⟨id, S⟩) ∧
      (∀ e, Effect.onStart e ∉ (process m now (some rc) st bytes).2)) := by
  constructor
  · intro hb hf
    rw [process_edge m now rc st bytes id S true hmsg (hok _) (hok _) (hok _) hS hb hf]
    refine ⟨by simp, readFlag_hset m st id true, ?_, ?_, ?_⟩
    · simp [List.count_cons]
    · intro e he
      simpa using he
    · intro e he
      simp at he
  · intro hb hf
    rw [process_edge m now rc st bytes id S false hmsg (hok _) (hok _) (hok _) hS hb hf]
    refine ⟨by simp, readFlag_hset m st id false, ?_, ?_, ?_⟩
    · simp [List.count_cons]
    · intro e he
      simpa using he
    · intro e he
      simp at he

set_option maxRecDepth 100000 in
/-- C2, the scenario: `product_a` registered with Wednesday 15:20:00 to
15:21:00.  Evaluated on Wednesday at 15:20:30 with the flag false, the flag
becomes true and `onStart` is called once; evaluated then at 15:21:30, the
flag becomes false and `onFinish` is called once. -/
theorem edge_triggered_callbacks_witness :
    UnmarshalEventMessage sampleMessage = some ⟨ascii "product_a"⟩ ∧
    readSchedule sampleScheduler sampleStore (ascii "product_a") = some sampleSchedules ∧
    between ⟨ascii "product_a", sampleSchedules⟩ ⟨.Wednesday, 15, 20, 30⟩ = .ok true ∧
    readFlag sampleScheduler sampleStore (ascii "product_a") = some false ∧
    readFlag sampleScheduler
      (process sampleScheduler ⟨.Wednesday, 15, 20, 30⟩ (some goodConn) sampleStore
        sampleMessage).1 (ascii "product_a") = some true ∧
    (process sampleScheduler ⟨.Wednesday, 15, 20, 30⟩ (some goodConn) sampleStore
        sampleMessage).2.count (.onStart ⟨ascii "product_a", sampleSchedules⟩) = 1 ∧
    between ⟨ascii "product_a", sampleSchedules⟩ ⟨.Wednesday, 15, 21, 30⟩ = .ok false ∧
    readFlag sampleScheduler
      (process sampleScheduler ⟨.Wednesday, 15, 21, 30⟩ (some goodConn)
        (process sampleScheduler ⟨.Wednesday, 15, 20, 30⟩ (some goodConn) sampleStore
          sampleMessage).1 sampleMessage).1 (ascii "product_a") = some false ∧
    (process sampleScheduler ⟨.Wednesday, 15, 21, 30⟩ (some goodConn)
        (process sampleScheduler ⟨.Wednesday, 15, 20, 30⟩ (some goodConn) sampleStore
          sampleMessage).1 sampleMessage).2.count
      (.onFinish ⟨ascii "product_a", sampleSchedules⟩) = 1 :=
  have h := (edge_triggered_callbacks sampleScheduler ⟨.Wednesday, 15, 20, 30⟩ goodConn
    sampleStore sampleMessage (ascii "product_a") sampleSchedules rfl (fun _ => rfl) rfl).1
    rfl rfl
  have k := (edge_triggered_callbacks sampleScheduler ⟨.Wednesday, 15, 21, 30⟩ goodConn
    (process sampleScheduler ⟨.Wednesday, 15, 20, 30⟩ (some goodConn) sampleStore
      sampleMessage).1 sampleMessage (ascii "product_a") sampleSchedules rfl (fun _ => rfl)
    rfl).2 rfl h.2.1
  ⟨rfl, rfl, rfl, rfl, h.2.1, h.2.2.1, rfl, k.2.1, k.2.2.1⟩

/-- The body of `process` leaves the store alone, calls no handler and
writes no flag whenever the state it reads shows no edge. -/
theorem evaluate_quiet (m : MaintenanceScheduler) (now : Now) (rc : Conn) (st : Store)
    (emsg : EventMessage)
    (h : ∀ S w f, readSchedule m st emsg.ID = some S → between ⟨emsg.ID, S⟩ now = .ok w →
      readFlag m st emsg.ID = some f → w = f) :
    (evaluate m now rc st emsg).1 = st ∧
    ∀ e ∈ (evaluate m now rc st emsg).2,
      (∀ ev, e ≠ .onStart ev) ∧ (∀ ev, e ≠ .onFinish ev) ∧ (∀ k f v, e ≠ .Do (.HSET k f v)) := by
  rw [evaluate_eq]
  cases rc.fails (.HGET m.skey emsg.ID)
  case true => simp
  case false =>
    simp only [Bool.false_eq_true, if_false]
    cases hS : readSchedule m st emsg.ID with
    | none => simp
    | some S =>
      simp only
      cases hb : between ⟨emsg.ID, S⟩ now with
      | error x => simp
      | ok w =>
        simp only
        cases rc.fails (.HGET m.fkey emsg.ID)
        case true => simp
        case false =>
          simp only [Bool.false_eq_true, if_false]
          cases hf : readFlag m st emsg.ID with
          | none => simp
          | some f =>
            simp only
            rw [if_pos (h S w f hS hb hf)]
            simp

/-- With no failing command, the body of `process` either finds no edge and
leaves the store alone, or finds an edge and sets the flag to the computed
window state. -/
theorem evaluate_ok_store (m : MaintenanceScheduler) (now : Now) (rc : Conn) (st : Store)
    (emsg : EventMessage) (hok : rc.ok) :
    ((evaluate m now rc st emsg).1 = st ∧
      ∀ S w f, readSchedule m st emsg.ID = some S → between ⟨emsg.ID, S⟩ now = .ok w →
        readFlag m st emsg.ID = some f → w = f) ∨
    ∃ S w, readSchedule m st emsg.ID = some S ∧ between ⟨emsg.ID, S⟩ now = .ok w ∧
      (evaluate m now rc st emsg).1 = st.hset m.fkey emsg.ID (boolArg w) := by
  have e := evaluate_eq m now rc st emsg
  simp only [hok _, Bool.false_eq_true, if_false] at e
  cases hS : readSchedule m st emsg.ID with
  | none =>
    left
    simp only [hS] at e
    exact ⟨by rw [e], fun S w f h1 => by cases h1⟩
  | some S =>
    simp only [hS] at e
    cases hb : between ⟨emsg.ID, S⟩ now with
    | error x =>
      left
      simp only [hb] at e
      refine ⟨by rw [e], ?_⟩
      intro S' w f h1 h2 h3
      cases h1
      rw [hb] at h2
      cases h2
    | ok w =>
      simp only [hb] at e
      cases hf : readFlag m st emsg.ID with
      | none =>
        left
        simp only [hf] at e
        exact ⟨by rw [e], fun S' w' f' _ _ h3 => by cases h3⟩
      | some f =>
        simp only [hf] at e
        by_cases hwf : w = f
        · left
          simp only [hwf, if_true] at e
          refine ⟨by rw [e], ?_⟩
          intro S' w' f' h1 h2 h3
          cases h1
          rw [hb] at h2
          cases h2
          cases h3
          exact hwf
        · right
          simp only [hwf, if_false] at e
          exact ⟨S, w, rfl, hb, by rw [e]⟩

/-- C3. Idempotence of evaluation.  When `process` evaluates a message twice
with the same result of `between` both times, the commands of the first
evaluation succeeding and nothing else writing in between, the second
evaluation leaves the store as the first left it, calls neither handler and
issues no `HSET`.  In general an evaluation whose computed window state equals
the stored flag leaves the store unchanged, calls no handler and issues no
`HSET`. -/
theorem evaluation_idempotent (m : MaintenanceScheduler) (now1 now2 : Now) (rc1 rc2 : Conn)
    (st : Store) (bytes : GoString) (hok : rc1.ok)
    (hsame : ∀ emsg S, UnmarshalEventMessage bytes = some emsg →
      readSchedule m st emsg.ID = some S →
      between ⟨emsg.ID, S⟩ now2 = between ⟨emsg.ID, S⟩ now1) :
    ((process m now2 (some rc2) (process m now1 (some rc1) st bytes).1 bytes).1 =
        (process m now1 (some rc1) st bytes).1 ∧
      ∀ e ∈ (process m now2 (some rc2) (process m now1 (some rc1) st bytes).1 bytes).2,
        (∀ ev, e ≠ .onStart ev) ∧ (∀ ev, e ≠ .onFinish ev) ∧
        (∀ k f v, e ≠ .Do (.HSET k f v))) ∧
    (∀ emsg S w, UnmarshalEventMessage bytes = some emsg →
      readSchedule m st emsg.ID = some S → between ⟨emsg.ID, S⟩ now1 = .ok w →
      readFlag m st emsg.ID = some w →
      (process m now1 (some rc1) st bytes).1 = st ∧
      ∀ e ∈ (process m now1 (some rc1) st bytes).2,
        (∀ ev, e ≠ .onStart ev) ∧ (∀ ev, e ≠ .onFinish ev) ∧
        (∀ k f v, e ≠ .Do (.HSET k f v))) := by
  constructor
  · cases hmsg : UnmarshalEventMessage bytes with
    | none => simp [process, hmsg]
    | some emsg =>
      rw [process_eq m now1 rc1 st bytes emsg hmsg]
      simp only
      rw [process_eq m now2 rc2 _ bytes emsg hmsg]
      simp only
      have hq : ∀ S w f, readSchedule m (evaluate m now1 rc1 st emsg).1 emsg.ID = some S →
          between ⟨emsg.ID, S⟩ now2 = .ok w →
          readFlag m (evaluate m now1 rc1 st emsg).1 emsg.ID = some f → w = f := by
        intro S w f h1 h2 h3
        rcases evaluate_ok_store m now1 rc1 st emsg hok with ⟨e, hst⟩ | ⟨S1, w1, hS1, hb1, e⟩
        · rw [e] at h1 h3
          rw [hsame emsg S hmsg h1] at h2
          exact hst S w f h1 h2 h3
        · rw [e, readSchedule_hset_flag] at h1
          rw [e, readFlag_hset] at h3
          rw [hS1] at h1
          cases h1
          rw [hsame emsg _ hmsg hS1, hb1] at h2
          cases h2
          cases h3
          rfl
      obtain ⟨q1, q2⟩ := evaluate_quiet m now2 rc2 _ emsg hq
      refine ⟨q1, ?_⟩
      intro e he
      rcases List.mem_append.1 he with he | he
      · exact q2 e he
      · simp only [List.mem_cons, List.mem_singleton, List.not_mem_nil, or_false] at he
        rcases he with h | h <;> subst h <;> simp
  · intro emsg S w hmsg hS hb hf
    rw [process_eq m now1 rc1 st bytes emsg hmsg]
    have hq : ∀ S' w' f', readSchedule m st emsg.ID = some S' →
        between ⟨emsg.ID, S'⟩ now1 = .ok w' → readFlag m st emsg.ID = some f' → w' = f' := by
      intro S' w' f' h1 h2 h3
      rw [hS] at h1
      cases h1
      rw [hb] at h2
      cases h2
      rw [hf] at h3
      cases h3
      rfl
    obtain ⟨q1, q2⟩ := evaluate_quiet m now1 rc1 st emsg hq
    refine ⟨q1, ?_⟩
    intro e he
    rcases List.mem_append.1 he with he | he
    · exact q2 e he
    · simp only [List.mem_cons, List.mem_singleton, List.not_mem_nil, or_false] at he
      rcases he with h | h <;> subst h <;> simp

set_option maxRecDepth 100000 in
/-- C3, on the sample: `product_a` evaluated on Wednesday at 15:20:30 and
again at 15:20:32, both inside the window; the second evaluation changes
nothing and calls no handler. -/
theorem evaluation_idempotent_witness :
    goodConn.ok ∧
    (process sampleScheduler ⟨.Wednesday, 15, 20, 32⟩ (some goodConn)
        (process sampleScheduler ⟨.Wednesday, 15, 20, 30⟩ (some goodConn) sampleStore
          sampleMessage).1 sampleMessage).1 =
      (process sampleScheduler ⟨.Wednesday, 15, 20, 30⟩ (some goodConn) sampleStore
        sampleMessage).1 ∧
    ∀ e ∈ (process sampleScheduler ⟨.Wednesday, 15, 20, 32⟩ (some goodConn)
        (process sampleScheduler ⟨.Wednesday, 15, 20, 30⟩ (some goodConn) sampleStore
          sampleMessage).1 sampleMessage).2,
      (∀ ev, e ≠ .onStart ev) ∧ (∀ ev, e ≠ .onFinish ev) ∧ (∀ k f v, e ≠ .Do (.HSET k f v)) :=
  ⟨fun _ => rfl,
   (evaluation_idempotent sampleScheduler ⟨.Wednesday, 15, 20, 30⟩ ⟨.Wednesday, 15, 20, 32⟩
      goodConn goodConn sampleStore sampleMessage (fun _ => rfl)
      (fun emsg S h1 h2 => by
        have e1 : some (EventMessage.mk (ascii "product_a")) = some emsg := h1
        cases e1
        have e2 : some sampleSchedules = some S := h2
        cases e2
        rfl)).1⟩

/-- The body of `process` issues no `PUBLISH`. -/
theorem evaluate_no_publish (m : MaintenanceScheduler) (now : Now) (rc : Conn) (st : Store)
    (emsg : EventMessage) (c msg : GoString) :
    Effect.Do (.PUBLISH c msg) ∉ (evaluate m now rc st emsg).2 := by
  rw [evaluate_eq]
  cases rc.fails (.HGET m.skey emsg.ID)
  case true => simp
  case false =>
    simp only [Bool.false_eq_true, if_false]
    cases readSchedule m st emsg.ID with
    | none => simp
    | some S =>
      simp only
      cases between ⟨emsg.ID, S⟩ now with
      | error x => simp
      | ok w =>
        simp only
        cases rc.fails (.HGET m.fkey emsg.ID)
        case true => simp
        case false =>
          simp only [Bool.false_eq_true, if_false]
          cases readFlag m st emsg.ID with
          | none => simp
          | some f =>
            simp only
            by_cases hwf : w = f
            · rw [if_pos hwf]
              simp
            · rw [if_neg hwf]
              cases rc.fails (.HSET m.fkey emsg.ID (boolArg w)) <;> cases w <;> simp

set_option maxRecDepth 100000 in
/-- C4 fails as stated: for `product_c`, which was never registered, the
schedule read returns not-found, and `process` still issues the `PUBLISH` of
the message. -/
theorem republish_after_schedule_not_found :
    sampleStore.hget sampleScheduler.skey (ascii "product_c") = none ∧
    readSchedule sampleScheduler sampleStore (ascii "product_c") = none ∧
    Effect.Do (.PUBLISH sampleScheduler.channel (MarshalEventMessage ⟨ascii "product_c"⟩)) ∈
      (process sampleScheduler ⟨.Wednesday, 15, 20, 30⟩ (some goodConn) sampleStore
        (MarshalEventMessage ⟨ascii "product_c"⟩)).2 := by
  refine ⟨rfl, rfl, ?_⟩
  rw [process_eq sampleScheduler ⟨.Wednesday, 15, 20, 30⟩ goodConn sampleStore
    (MarshalEventMessage ⟨ascii "product_c"⟩) ⟨ascii "product_c"⟩ rfl]
  simp

/-- C4 as amended.  `process` issues no command at all when the message
cannot be decoded or the connection is nil.  On every other path, whatever
the schedule read, `between`, the flag read, the flag write or the handler
do, it issues exactly one `PUBLISH`, of the received bytes on the channel of
the context, as its last effect, right after the sleep. -/
theorem republish_on_every_decoded_path (m : MaintenanceScheduler) (now : Now) (st : Store)
    (bytes : GoString) :
    (UnmarshalEventMessage bytes = none → ∀ rc, process m now rc st bytes = (st, [])) ∧
    process m now none st bytes = (st, []) ∧
    (∀ emsg rc, UnmarshalEventMessage bytes = some emsg →
      ∃ tr, (process m now (some rc) st bytes).2 =
          tr ++ [.Sleep m.sleepDuration, .Do (.PUBLISH m.channel bytes)] ∧
        ∀ c msg, Effect.Do (.PUBLISH c msg) ∉ tr) := by
  refine ⟨?_, ?_, ?_⟩
  · intro h rc
    simp [process, h]
  · cases h : UnmarshalEventMessage bytes <;> simp [process, h]
  · intro emsg rc h
    rw [process_eq m now rc st bytes emsg h]
    exact ⟨_, rfl, fun c msg => evaluate_no_publish m now rc st emsg c msg⟩

/-- C5 fails on the code (failing input).  A schedule whose `Day` is spelled
`Wednesday` is stored by `CreateSchedules` under that very key, `between`
looks up `wednesday`, and on a Wednesday at 15:20:30, strictly inside
15:20:00 to 15:21:00, it returns `false`; with the lower-case spelling it
returns `true`. -/
theorem capitalised_day_never_matches :
    between ⟨ascii "product_a",
        CreateSchedules [⟨ascii "Wednesday", ascii "15:20:00", ascii "15:21:00"⟩]⟩
      ⟨.Wednesday, 15, 20, 30⟩ = .ok false ∧
    between ⟨ascii "product_a",
        CreateSchedules [⟨ascii "wednesday", ascii "15:20:00", ascii "15:21:00"⟩]⟩
      ⟨.Wednesday, 15, 20, 30⟩ = .ok true :=
  ⟨rfl, rfl⟩

theorem mapGet_mapSet_same (l : List (GoString × Schedule)) (k : GoString) (v : Schedule) :
    mapGet (some (mapSet l k v)) k = some v := by
  simp [mapGet, mapSet, List.lookup]

theorem CreateSchedules_last (xs : List Schedule) (s : Schedule) :
    mapGet (CreateSchedules (xs ++ [s])) s.Day = some s := by
  simp only [CreateSchedules, List.foldl_append, List.foldl_cons, List.foldl_nil]
  exact mapGet_mapSet_same _ _ _

/-- The outcome of `Schedule` when no command fails. -/
theorem Schedule_ok (m : MaintenanceScheduler) (c : Conn) (st : Store) (id : GoString)
    (S : ScheduleMap) (hok : c.ok) :
    m.Schedule c st id S =
      (none, (st.hset m.fkey id (boolArg false)).hset m.skey id (MarshalSchedules S),
        [.Do (.HSET m.fkey id (boolArg false)), .Do (.HSET m.skey id (MarshalSchedules S)),
         .Do (.PUBLISH m.channel (MarshalEventMessage ⟨id⟩))]) := by
  simp only [MaintenanceScheduler.Schedule, Conn.Do, hok _]
  simp

/-- C10. Windows that violate start < end are accepted and never match.
`CreateSchedules` stores a schedule as given and `Schedule` registers any
schedule set without an error when its commands succeed; and for an entry of
today whose parsed start is not strictly before its parsed end, `between`
returns `false` without error at every time of day, so `process` never calls
`onStart` for it. -/
theorem unordered_window_never_matches (S : ScheduleMap) (id : GoString) (now : Now)
    (sch : Schedule) (stime etime : Time) (hv : now.Valid)
    (hget : mapGet S (ToLower now.weekday.String) = some sch)
    (hs : Parse sch.StartFmt = some stime) (he : Parse sch.EndFmt = some etime)
    (hord : ¬ stime.ns < etime.ns) :
    between ⟨id, S⟩ now = .ok false ∧
    (∀ xs, mapGet (CreateSchedules (xs ++ [sch])) sch.Day = some sch) ∧
    (∀ (m : MaintenanceScheduler) (c : Conn) (st : Store), c.ok →
      (m.Schedule c st id S).1 = none ∧
      (m.Schedule c st id S).2.1.hget m.skey id = some (MarshalSchedules S)) ∧
    (∀ (m : MaintenanceScheduler) (rc : Conn) (st : Store) (bytes : GoString),
      UnmarshalEventMessage bytes = some ⟨id⟩ →
      readSchedule m st id = some S →
      ∀ ev, Effect.onStart ev ∉ (process m now (some rc) st bytes).2) := by
  have hb : between ⟨id, S⟩ now = .ok false := by
    rw [between_eq S id now hv sch stime etime hget hs he]
    have : ¬ (stime.ns < (Date now.hh now.mm now.ss 0).ns ∧
        (Date now.hh now.mm now.ss 0).ns < etime.ns) := fun h => hord (lt_trans h.1 h.2)
    simp [this]
  refine ⟨hb, fun xs => CreateSchedules_last xs sch, ?_, ?_⟩
  · intro m c st hok
    rw [Schedule_ok m c st id S hok]
    exact ⟨rfl, hset_same _ _ _ _⟩
  · intro m rc st bytes hmsg hS ev
    rw [process_eq m now rc st bytes ⟨id⟩ hmsg, evaluate_eq]
    simp only [hS, hb]
    cases rc.fails (.HGET m.skey id) <;> cases rc.fails (.HGET m.fkey id) <;>
      cases readFlag m st id with
      | none => simp
      | some f => cases f <;> cases rc.fails (.HSET m.fkey id (boolArg false)) <;> simp

/-- C10, on a cross-midnight window: Wednesday 22:00:00 to 02:00:00 does not
match at 23:00:00. -/
theorem unordered_window_never_matches_witness :
    Now.Valid ⟨.Wednesday, 23, 0, 0⟩ ∧
    ¬ (79200000000000 : Nat) < 7200000000000 ∧
    between ⟨ascii "product_a",
        CreateSchedules [⟨ascii "wednesday", ascii "22:00:00", ascii "02:00:00"⟩]⟩
      ⟨.Wednesday, 23, 0, 0⟩ = .ok false :=
  ⟨⟨by decide, by decide, by decide⟩, by decide,
   (unordered_window_never_matches
      (CreateSchedules [⟨ascii "wednesday", ascii "22:00:00", ascii "02:00:00"⟩])
      (ascii "product_a") ⟨.Wednesday, 23, 0, 0⟩
      ⟨ascii "wednesday", ascii "22:00:00", ascii "02:00:00"⟩
      ⟨79200000000000⟩ ⟨7200000000000⟩ ⟨by decide, by decide, by decide⟩ rfl rfl rfl
      (by decide)).1⟩

/-- The store after the body of `process`: untouched, or, on an edge, with
the flag of the entity set to the computed window state. -/
theorem evaluate_store_cases (m : MaintenanceScheduler) (now : Now) (rc : Conn) (st : Store)
    (emsg : EventMessage) :
    (evaluate m now rc st emsg).1 = st ∨
    ∃ S w, readSchedule m st emsg.ID = some S ∧ between ⟨emsg.ID, S⟩ now = .ok w ∧
      readFlag m st emsg.ID = some (!w) ∧
      (evaluate m now rc st emsg).1 = st.hset m.fkey emsg.ID (boolArg w) := by
  have e := evaluate_eq m now rc st emsg
  cases h1 : rc.fails (.HGET m.skey emsg.ID)
  case true => simp only [h1, if_true] at e; left; rw [e]
  case false =>
    simp only [h1, Bool.false_eq_true, if_false] at e
    cases hS : readSchedule m st emsg.ID with
    | none => simp only [hS] at e; left; rw [e]
    | some S =>
      simp only [hS] at e
      cases hb : between ⟨emsg.ID, S⟩ now with
      | error x => simp only [hb] at e; left; rw [e]
      | ok w =>
        simp only [hb] at e
        cases h2 : rc.fails (.HGET m.fkey emsg.ID)
        case true => simp only [h2, if_true] at e; left; rw [e]
        case false =>
          simp only [h2, Bool.false_eq_true, if_false] at e
          cases hf : readFlag m st emsg.ID with
          | none => simp only [hf] at e; left; rw [e]
          | some f =>
            simp only [hf] at e
            by_cases hwf : w = f
            · simp only [hwf, if_true] at e; left; rw [e]
            · simp only [hwf, if_false] at e
              by_cases h3 : rc.fails (.HSET m.fkey emsg.ID (boolArg w)) = true
              · simp only [h3, if_true] at e; left; rw [e]
              · simp only [h3, Bool.false_eq_true, if_false] at e
                right
                refine ⟨S, w, rfl, hb, ?_, by rw [e]⟩
                cases w <;> cases f <;> simp_all

/-- The store after `process` when the message decodes. -/
theorem process_store (m : MaintenanceScheduler) (now : Now) (rc : Option Conn) (st : Store)
    (bytes : GoString) :
    (process m now rc st bytes).1 = st ∨
    ∃ id S w, UnmarshalEventMessage bytes = some ⟨id⟩ ∧ readSchedule m st id = some S ∧
      between ⟨id, S⟩ now = .ok w ∧ readFlag m st id = some (!w) ∧
      (process m now rc st bytes).1 = st.hset m.fkey id (boolArg w) := by
  cases hmsg : UnmarshalEventMessage bytes with
  | none => left; simp [process, hmsg]
  | some emsg =>
    cases rc with
    | none => left; simp [process, hmsg]
    | some rc =>
      rw [process_eq m now rc st bytes emsg hmsg]
      rcases evaluate_store_cases m now rc st emsg with h | ⟨S, w, h1, h2, h3, h4⟩
      · left; exact h
      · right; exact ⟨emsg.ID, S, w, rfl, h1, h2, h3, h4⟩

/-- The store after `Schedule`: a prefix of its two writes has been applied. -/
theorem Schedule_store_cases (m : MaintenanceScheduler) (c : Conn) (st : Store) (id : GoString)
    (S : ScheduleMap) :
    (c.fails (.HSET m.fkey id (boolArg false)) = true ∧ (m.Schedule c st id S).2.1 = st) ∨
    (c.fails (.HSET m.fkey id (boolArg false)) = false ∧
      ((m.Schedule c st id S).2.1 = st.hset m.fkey id (boolArg false) ∨
       (m.Schedule c st id S).2.1 =
          (st.hset m.fkey id (boolArg false)).hset m.skey id (MarshalSchedules S))) := by
  simp only [MaintenanceScheduler.Schedule, Conn.Do]
  cases h1 : c.fails (.HSET m.fkey id (boolArg false))
  case true => left; simp
  case false =>
    right
    refine ⟨rfl, ?_⟩
    cases h2 : c.fails (.HSET m.skey id (MarshalSchedules S))
    case true => left; simp
    case false =>
      right
      cases h3 : c.fails (.PUBLISH m.channel (MarshalEventMessage ⟨id⟩)) <;> simp

/-- Commands of `Schedule` for one entity leave the fields of every other
entity alone. -/
theorem Schedule_other (m : MaintenanceScheduler) (c : Conn) (st : Store) (id : GoString)
    (S : ScheduleMap) (k f : GoString) (hne : f ≠ id) :
    (m.Schedule c st id S).2.1.hget k f = st.hget k f := by
  rcases Schedule_store_cases m c st id S with ⟨_, h⟩ | ⟨_, h | h⟩ <;> rw [h]
  · exact hset_other _ _ _ _ _ _ (fun x => hne x.2)
  · rw [hset_other _ _ _ _ _ _ (fun x => hne x.2), hset_other _ _ _ _ _ _ (fun x => hne x.2)]

/-- An evaluation by `process` leaves the fields of every entity other than
the one named in the message alone. -/
theorem process_other (m : MaintenanceScheduler) (now : Now) (rc : Option Conn) (st : Store)
    (bytes id : GoString) (hmsg : UnmarshalEventMessage bytes = some ⟨id⟩)
    (k f : GoString) (hne : f ≠ id) :
    (process m now rc st bytes).1.hget k f = st.hget k f := by
  rcases process_store m now rc st bytes with h | ⟨id', S, w, h1, _, _, _, h5⟩
  · rw [h]
  · rw [hmsg] at h1
    cases h1
    rw [h5]
    exact hset_other _ _ _ _ _ _ (fun x => hne x.2)

set_option maxRecDepth 100000 in
/-- C6 fails as stated: once `product_a` is inside its window and its flag is
true, calling `Schedule` again for `product_a` sets the flag back to false. -/
theorem reschedule_resets_flag :
    readFlag sampleScheduler
      (process sampleScheduler ⟨.Wednesday, 15, 20, 30⟩ (some goodConn) sampleStore
        sampleMessage).1 (ascii "product_a") = some true ∧
    readFlag sampleScheduler
      (sampleScheduler.Schedule goodConn
        (process sampleScheduler ⟨.Wednesday, 15, 20, 30⟩ (some goodConn) sampleStore
          sampleMessage).1 (ascii "product_a") sampleSchedules).2.1
      (ascii "product_a") = some false :=
  ⟨rfl, rfl⟩

/-- C6 as amended.  The flag of an entity is written in two places only.
`Schedule(id, ...)` writes it to false on every call, also for an entity that
is already registered, and leaves the flag of every other entity.  `process`
changes a flag only on an edge: if the flag of an entity differs after an
evaluation, the message named that entity, its schedule was read, `between`
returned a value different from the stored flag, and the flag now holds that
value. -/
theorem flag_written_by_schedule_and_on_edges (m : MaintenanceScheduler) :
    (∀ (c : Conn) (st : Store) (id : GoString) (S : ScheduleMap),
      c.fails (.HSET m.fkey id (boolArg false)) = false →
      readFlag m (m.Schedule c st id S).2.1 id = some false) ∧
    (∀ (c : Conn) (st : Store) (id : GoString) (S : ScheduleMap) (other : GoString),
      other ≠ id → (m.Schedule c st id S).2.1.hget m.fkey other = st.hget m.fkey other) ∧
    (∀ (now : Now) (rc : Option Conn) (st : Store) (bytes id : GoString),
      (process m now rc st bytes).1.hget m.fkey id ≠ st.hget m.fkey id →
      ∃ S w, UnmarshalEventMessage bytes = some ⟨id⟩ ∧ readSchedule m st id = some S ∧
        between ⟨id, S⟩ now = .ok w ∧ readFlag m st id = some (!w) ∧
        (process m now rc st bytes).1.hget m.fkey id = some (boolArg w)) := by
  refine ⟨?_, ?_, ?_⟩
  · intro c st id S hc
    rcases Schedule_store_cases m c st id S with ⟨h, _⟩ | ⟨_, h | h⟩
    · rw [hc] at h
      cases h
    · rw [h]
      exact readFlag_hset m st id false
    · rw [h, readFlag_eq, hset_other _ _ _ _ _ _ (fun x => fkey_ne_skey m x.1.symm), hset_same]
      exact ParseBool_boolArg false
  · intro c st id S other hne
    exact Schedule_other m c st id S m.fkey other hne
  · intro now rc st bytes id hchg
    rcases process_store m now rc st bytes with h | ⟨id', S, w, h1, h2, h3, h4, h5⟩
    · rw [h] at hchg
      exact absurd rfl hchg
    · by_cases hid : id = id'
      · subst hid
        exact ⟨S, w, h1, h2, h3, h4, by rw [h5, hset_same]⟩
      · rw [h5, hset_other _ _ _ _ _ _ (fun x => hid x.2)] at hchg
        exact absurd rfl hchg

/-- C8. Entities are independent.  For distinct ids `a` and `b` of one
context: `Schedule` for `a` leaves the flag and the schedule of `b`;
registering both through connections that do not fail yields four separate
records, the flag and the schedule of each; and every evaluation by `process`
of a message for `a`, whatever branch it takes and whatever fails, leaves
the stored flag and the stored schedule of `b` unchanged. -/
theorem entities_independent (m : MaintenanceScheduler) (a b : GoString) (hab : a ≠ b) :
    (∀ (c : Conn) (st : Store) (S : ScheduleMap),
      (m.Schedule c st a S).2.1.hget m.fkey b = st.hget m.fkey b ∧
      (m.Schedule c st a S).2.1.hget m.skey b = st.hget m.skey b) ∧
    (∀ (ca cb : Conn) (st : Store) (Sa Sb : ScheduleMap), ca.ok → cb.ok →
      (m.Schedule cb (m.Schedule ca st a Sa).2.1 b Sb).2.1.hget m.fkey a = some (boolArg false) ∧
      (m.Schedule cb (m.Schedule ca st a Sa).2.1 b Sb).2.1.hget m.skey a
        = some (MarshalSchedules Sa) ∧
      (m.Schedule cb (m.Schedule ca st a Sa).2.1 b Sb).2.1.hget m.fkey b = some (boolArg false) ∧
      (m.Schedule cb (m.Schedule ca st a Sa).2.1 b Sb).2.1.hget m.skey b
        = some (MarshalSchedules Sb)) ∧
    (∀ (now : Now) (rc : Option Conn) (st : Store) (bytes : GoString),
      UnmarshalEventMessage bytes = some ⟨a⟩ →
      (process m now rc st bytes).1.hget m.fkey b = st.hget m.fkey b ∧
      (process m now rc st bytes).1.hget m.skey b = st.hget m.skey b ∧
      readFlag m (process m now rc st bytes).1 b = readFlag m st b ∧
      readSchedule m (process m now rc st bytes).1 b = readSchedule m st b) := by
  have hba : b ≠ a := fun h => hab h.symm
  refine ⟨?_, ?_, ?_⟩
  · intro c st S
    exact ⟨Schedule_other m c st a S m.fkey b hba, Schedule_other m c st a S m.skey b hba⟩
  · intro ca cb st Sa Sb ha hb
    rw [Schedule_ok m cb _ b Sb hb]
    simp only
    rw [Schedule_ok m ca st a Sa ha]
    simp only
    have hsf : ¬ (m.fkey = m.skey) := fun x => fkey_ne_skey m x.symm
    refine ⟨?_, ?_, ?_, ?_⟩
    · rw [hset_other _ _ _ _ _ _ (fun x => hsf x.1), hset_other _ _ _ _ _ _ (fun x => hab x.2),
        hset_other _ _ _ _ _ _ (fun x => hsf x.1), hset_same]
    · rw [hset_other _ _ _ _ _ _ (fun x => hab x.2), hset_other _ _ _ _ _ _ (fun x => hab x.2),
        hset_same]
    · rw [hset_other _ _ _ _ _ _ (fun x => hsf x.1), hset_same]
    · rw [hset_same]
  · intro now rc st bytes hmsg
    have h1 := process_other m now rc st bytes a hmsg m.fkey b hba
    have h2 := process_other m now rc st bytes a hmsg m.skey b hba
    refine ⟨h1, h2, ?_, ?_⟩
    · rw [readFlag_eq, readFlag_eq, h1]
    · rw [readSchedule_eq, readSchedule_eq, h2]

set_option maxRecDepth 100000 in
/-- C8, on the sample: evaluating `product_a` on its rising edge leaves the
flag and the schedule of `product_b` as they were. -/
theorem entities_independent_witness :
    ascii "product_a" ≠ ascii "product_b" ∧
    readFlag sampleScheduler
      (process sampleScheduler ⟨.Wednesday, 15, 20, 30⟩ (some goodConn) sampleStore
        sampleMessage).1 (ascii "product_b") = some false ∧
    readSchedule sampleScheduler
      (process sampleScheduler ⟨.Wednesday, 15, 20, 30⟩ (some goodConn) sampleStore
        sampleMessage).1 (ascii "product_b") = some sampleSchedules :=
  have h := (entities_independent sampleScheduler (ascii "product_a") (ascii "product_b")
    (by decide)).2.2 ⟨.Wednesday, 15, 20, 30⟩ (some goodConn) sampleStore sampleMessage rfl
  ⟨by decide, h.2.2.1.trans rfl, h.2.2.2.trans rfl⟩

/-- C9. A failing callback does not roll back the flag.  On a rising edge
(`between` true, stored flag false, the reads and the flag write succeeding)
on which `onStart` returns an error, the stored flag is true when `process`
returns, and after the call of `onStart` only the sleep and the `PUBLISH`
follow; symmetrically on a falling edge on which `onFinish` returns an
error the stored flag is false and no write follows the call. -/
theorem failing_callback_keeps_flag (m : MaintenanceScheduler) (now : Now) (rc : Conn)
    (st : Store) (bytes id : GoString) (S : ScheduleMap)
    (hmsg : UnmarshalEventMessage bytes = some ⟨id⟩)
    (h1 : rc.fails (.HGET m.skey id) = false) (h2 : rc.fails (.HGET m.fkey id) = false)
    (hS : readSchedule m st id = some S) :
    (between ⟨id, S⟩ now = .ok true → readFlag m st id = some false →
      rc.fails (.HSET m.fkey id (boolArg true)) = false → m.onStart ⟨id, S⟩ = true →
      readFlag m (process m now (some rc) st bytes).1 id = some true ∧
      (process m now (some rc) st bytes).2 =
        [.Do (.HGET m.skey id), .Do (.HGET m.fkey id), .Do (.HSET m.fkey id (boolArg true)),
         .onStart ⟨id, S⟩, .Sleep m.sleepDuration, .Do (.PUBLISH m.channel bytes)]) ∧
    (between ⟨id, S⟩ now = .ok false → readFlag m st id = some true →
      rc.fails (.HSET m.fkey id (boolArg false)) = false → m.onFinish ⟨id, S⟩ = true →
      readFlag m (process m now (some rc) st bytes).1 id = some false ∧
      (process m now (some rc) st bytes).2 =
        [.Do (.HGET m.skey id), .Do (.HGET m.fkey id), .Do (.HSET m.fkey id (boolArg false)),
         .onFinish ⟨id, S⟩, .Sleep m.sleepDuration, .Do (.PUBLISH m.channel bytes)]) := by
  constructor
  · intro hb hf h3 _
    rw [process_edge m now rc st bytes id S true hmsg h1 h2 h3 hS hb hf]
    exact ⟨readFlag_hset m st id true, rfl⟩
  · intro hb hf h3 _
    rw [process_edge m now rc st bytes id S false hmsg h1 h2 h3 hS hb hf]
    exact ⟨readFlag_hset m st id false, rfl⟩

set_option maxRecDepth 100000 in
/-- C9, on the sample with a start handler that always fails: after the
rising edge at 15:20:30 the flag of `product_a` is true. -/
theorem failing_callback_keeps_flag_witness :
    failingScheduler.onStart ⟨ascii "product_a", sampleSchedules⟩ = true ∧
    readFlag failingScheduler sampleStore (ascii "product_a") = some false ∧
    readFlag failingScheduler
      (process failingScheduler ⟨.Wednesday, 15, 20, 30⟩ (some goodConn) sampleStore
        sampleMessage).1 (ascii "product_a") = some true :=
  ⟨rfl, rfl,
   ((failing_callback_keeps_flag failingScheduler ⟨.Wednesday, 15, 20, 30⟩ goodConn sampleStore
      sampleMessage (ascii "product_a") sampleSchedules rfl rfl rfl rfl).1 rfl rfl rfl rfl).1⟩

/-! ## UTF-8 -/

theorem first_two (p0 : Nat) (h0 : 0xC2 ≤ p0 ∧ p0 ≤ 0xDF) : first p0 = some (2, 0x80, 0xBF) := by
  simp only [first]
  rw [if_pos h0]

theorem DecodeRune_two (p0 b1 : Nat) (q : GoString) (h0 : 0xC2 ≤ p0 ∧ p0 ≤ 0xDF)
    (h1 : 0x80 ≤ b1 ∧ b1 ≤ 0xBF) :
    DecodeRune (p0 :: b1 :: q) = ((p0 % 32) * 64 + b1 % 64, 2) := by
  have hlt : ¬ p0 < 0x80 := by omega
  simp only [DecodeRune, first_two p0 h0, if_neg hlt]
  simp only [List.length_cons, List.getD_cons_zero]
  rw [if_neg (by omega), if_neg (by omega)]
  simp

theorem first_three (p0 b1 : Nat) (h : lead3 p0 b1) :
    ∃ lo hi, first p0 = some (3, lo, hi) ∧ lo ≤ b1 ∧ b1 ≤ hi := by
  obtain ⟨h1, h2, h3, h4, h5, h6⟩ := h
  simp only [first]
  by_cases c1 : p0 = 0xE0
  · subst c1
    exact ⟨0xA0, 0xBF, by simp, h5 rfl, h4⟩
  · by_cases c2 : p0 = 0xED
    · subst c2
      exact ⟨0x80, 0x9F, by simp, h3, h6 rfl⟩
    · by_cases c3 : p0 ≤ 0xEC
      · refine ⟨0x80, 0xBF, ?_, h3, h4⟩
        rw [if_neg (by omega), if_neg c1, if_pos (by omega)]
      · refine ⟨0x80, 0xBF, ?_, h3, h4⟩
        rw [if_neg (by omega), if_neg c1, if_neg (by omega), if_neg c2, if_pos (by omega)]

theorem first_four (p0 b1 : Nat) (h : lead4 p0 b1) :
    ∃ lo hi, first p0 = some (4, lo, hi) ∧ lo ≤ b1 ∧ b1 ≤ hi := by
  obtain ⟨h1, h2, h3, h4, h5, h6⟩ := h
  simp only [first]
  by_cases c1 : p0 = 0xF0
  · subst c1
    exact ⟨0x90, 0xBF, by simp, h5 rfl, h4⟩
  · by_cases c2 : p0 = 0xF4
    · subst c2
      exact ⟨0x80, 0x8F, by simp, h3, h6 rfl⟩
    · refine ⟨0x80, 0xBF, ?_, h3, h4⟩
      rw [if_neg (by omega), if_neg (by omega), if_neg (by omega), if_neg (by omega),
        if_neg (by omega), if_neg c1, if_pos (by omega)]

theorem DecodeRune_three (p0 b1 b2 : Nat) (q : GoString) (h : lead3 p0 b1)
    (h2 : 0x80 ≤ b2 ∧ b2 ≤ 0xBF) :
    DecodeRune (p0 :: b1 :: b2 :: q) = ((p0 % 16) * 4096 + (b1 % 64) * 64 + b2 % 64, 3) := by
  obtain ⟨lo, hi, hf, hlo, hhi⟩ := first_three p0 b1 h
  have hlt : ¬ p0 < 0x80 := by unfold lead3 at h; omega
  simp only [DecodeRune, hf, if_neg hlt]
  simp only [List.length_cons, List.getD_cons_zero, List.getD_cons_succ, isCont]
  rw [if_neg (by omega), if_neg (by omega), if_neg (by omega)]
  simp [h2]

theorem DecodeRune_four (p0 b1 b2 b3 : Nat) (q : GoString) (h : lead4 p0 b1)
    (h2 : 0x80 ≤ b2 ∧ b2 ≤ 0xBF) (h3 : 0x80 ≤ b3 ∧ b3 ≤ 0xBF) :
    DecodeRune (p0 :: b1 :: b2 :: b3 :: q) =
      ((p0 % 8) * 262144 + (b1 % 64) * 4096 + (b2 % 64) * 64 + b3 % 64, 4) := by
  obtain ⟨lo, hi, hf, hlo, hhi⟩ := first_four p0 b1 h
  have hlt : ¬ p0 < 0x80 := by unfold lead4 at h; omega
  simp only [DecodeRune, hf, if_neg hlt]
  simp only [List.length_cons, List.getD_cons_zero, List.getD_cons_succ, isCont]
  rw [if_neg (by omega), if_neg (by omega), if_neg (by omega)]
  simp [h2, h3]

theorem first_none (p0 : Nat) (h : p0 < 0xC2 ∨ 0xF4 < p0) : first p0 = none := by
  simp only [first]
  rw [if_neg (by omega), if_neg (by omega), if_neg (by omega), if_neg (by omega),
    if_neg (by omega), if_neg (by omega), if_neg (by omega), if_neg (by omega)]

theorem first_three_eq (p0 : Nat) (h : 0xE0 ≤ p0 ∧ p0 ≤ 0xEF) :
    first p0 = some (3, if p0 = 0xE0 then 0xA0 else 0x80, if p0 = 0xED then 0x9F else 0xBF) := by
  simp only [first]
  by_cases c1 : p0 = 0xE0
  · subst c1; simp
  · by_cases c2 : p0 = 0xED
    · subst c2; simp
    · by_cases c3 : p0 ≤ 0xEC
      · rw [if_neg (by omega), if_neg c1, if_pos (by omega), if_neg c1, if_neg c2]
      · rw [if_neg (by omega), if_neg c1, if_neg (by omega), if_neg c2, if_pos (by omega),
          if_neg c1, if_neg c2]

theorem first_four_eq (p0 : Nat) (h : 0xF0 ≤ p0 ∧ p0 ≤ 0xF4) :
    first p0 = some (4, if p0 = 0xF0 then 0x90 else 0x80, if p0 = 0xF4 then 0x8F else 0xBF) := by
  simp only [first]
  by_cases c1 : p0 = 0xF0
  · subst c1; simp
  · by_cases c2 : p0 = 0xF4
    · subst c2; simp
    · rw [if_neg (by omega), if_neg (by omega), if_neg (by omega), if_neg (by omega),
        if_neg (by omega), if_neg c1, if_pos (by omega), if_neg c1, if_neg c2]

/-- The shapes of input on which `DecodeRune` does not report an invalid
byte, for a leading byte outside ASCII. -/
theorem DecodeRune_shape (p0 : Nat) (rest : GoString) (h80 : 0x80 ≤ p0) :
    DecodeRune (p0 :: rest) = (RuneError, 1) ∨
    (∃ b1 q, rest = b1 :: q ∧ (0xC2 ≤ p0 ∧ p0 ≤ 0xDF) ∧ (0x80 ≤ b1 ∧ b1 ≤ 0xBF)) ∨
    (∃ b1 b2 q, rest = b1 :: b2 :: q ∧ lead3 p0 b1 ∧ (0x80 ≤ b2 ∧ b2 ≤ 0xBF)) ∨
    (∃ b1 b2 b3 q, rest = b1 :: b2 :: b3 :: q ∧ lead4 p0 b1 ∧ (0x80 ≤ b2 ∧ b2 ≤ 0xBF) ∧
      (0x80 ≤ b3 ∧ b3 ≤ 0xBF)) := by
  have hlt : ¬ p0 < 0x80 := by omega
  by_cases r0 : p0 < 0xC2 ∨ 0xF4 < p0
  · left
    simp only [DecodeRune, first_none p0 r0, if_neg hlt]
  by_cases r2 : p0 ≤ 0xDF
  · have hf := first_two p0 ⟨by omega, r2⟩
    cases rest with
    | nil => left; simp [DecodeRune, hf, hlt]
    | cons b1 q =>
      by_cases hb : 0x80 ≤ b1 ∧ b1 ≤ 0xBF
      · right; left
        exact ⟨b1, q, rfl, ⟨by omega, r2⟩, hb⟩
      · left
        simp only [DecodeRune, hf, if_neg hlt, List.length_cons, List.getD_cons_zero]
        rw [if_neg (by omega), if_pos (by omega)]
  by_cases r3 : p0 ≤ 0xEF
  · have hf := first_three_eq p0 ⟨by omega, r3⟩
    cases rest with
    | nil => left; simp [DecodeRune, hf, hlt]
    | cons b1 q =>
      cases q with
      | nil => left; simp [DecodeRune, hf, hlt]
      | cons b2 q =>
        by_cases hb : lead3 p0 b1 ∧ (0x80 ≤ b2 ∧ b2 ≤ 0xBF)
        · right; right; left
          exact ⟨b1, b2, q, rfl, hb.1, hb.2⟩
        · left
          simp only [DecodeRune, hf, if_neg hlt, List.length_cons, List.getD_cons_zero,
            List.getD_cons_succ, isCont]
          unfold lead3 at hb
          rw [if_neg (by omega)]
          by_cases c1 : b1 < (if p0 = 0xE0 then 0xA0 else 0x80) ∨
              (if p0 = 0xED then 0x9F else 0xBF) < b1
          · rw [if_pos c1]
          · rw [if_neg c1, if_neg (by omega)]
            have hb2 : ¬ (0x80 ≤ b2 ∧ b2 ≤ 0xBF) := by
              intro hb2
              apply hb
              refine ⟨⟨by omega, by omega, ?_, ?_, ?_, ?_⟩, hb2⟩
              · split_ifs at c1 <;> omega
              · split_ifs at c1 <;> omega
              · intro e; rw [if_pos e] at c1; omega
              · intro e; rw [if_pos e] at c1; omega
            simp [hb2]
  · have hf := first_four_eq p0 ⟨by omega, by omega⟩
    cases rest with
    | nil => left; simp [DecodeRune, hf, hlt]
    | cons b1 q =>
      cases q with
      | nil => left; simp [DecodeRune, hf, hlt]
      | cons b2 q =>
        cases q with
        | nil => left; simp [DecodeRune, hf, hlt]
        | cons b3 q =>
          by_cases hb : lead4 p0 b1 ∧ (0x80 ≤ b2 ∧ b2 ≤ 0xBF) ∧ (0x80 ≤ b3 ∧ b3 ≤ 0xBF)
          · right; right; right
            exact ⟨b1, b2, b3, q, rfl, hb.1, hb.2.1, hb.2.2⟩
          · left
            simp only [DecodeRune, hf, if_neg hlt, List.length_cons, List.getD_cons_zero,
              List.getD_cons_succ, isCont]
            unfold lead4 at hb
            rw [if_neg (by omega)]
            by_cases c1 : b1 < (if p0 = 0xF0 then 0x90 else 0x80) ∨
                (if p0 = 0xF4 then 0x8F else 0xBF) < b1
            · rw [if_pos c1]
            · rw [if_neg c1, if_neg (by omega)]
              have hl : lead4 p0 b1 := by
                refine ⟨by omega, by omega, ?_, ?_, ?_, ?_⟩
                · split_ifs at c1 <;> omega
                · split_ifs at c1 <;> omega
                · intro e; rw [if_pos e] at c1; omega
                · intro e; rw [if_pos e] at c1; omega
              by_cases hb2 : 0x80 ≤ b2 ∧ b2 ≤ 0xBF
              · have hb3 : ¬ (0x80 ≤ b3 ∧ b3 ≤ 0xBF) := fun hb3 => hb ⟨hl, hb2, hb3⟩
                simp [hb2, hb3]
              · simp [hb2]

theorem EncodeRune_two (p0 b1 : Nat) (h0 : 0xC2 ≤ p0 ∧ p0 ≤ 0xDF) (h1 : 0x80 ≤ b1 ∧ b1 ≤ 0xBF) :
    EncodeRune ((p0 % 32) * 64 + b1 % 64) = [p0, b1] := by
  simp only [EncodeRune]
  rw [if_neg (by omega), if_pos (by omega)]
  congr 1
  · omega
  · congr 1
    omega

theorem EncodeRune_three (p0 b1 b2 : Nat) (h : lead3 p0 b1) (h2 : 0x80 ≤ b2 ∧ b2 ≤ 0xBF) :
    EncodeRune ((p0 % 16) * 4096 + (b1 % 64) * 64 + b2 % 64) = [p0, b1, b2] := by
  unfold lead3 at h
  simp only [EncodeRune]
  rw [if_neg (by omega), if_neg (by omega), if_neg (by omega), if_pos (by omega)]
  congr 1
  · omega
  · congr 1
    · omega
    · congr 1
      omega

theorem EncodeRune_four (p0 b1 b2 b3 : Nat) (h : lead4 p0 b1) (h2 : 0x80 ≤ b2 ∧ b2 ≤ 0xBF)
    (h3 : 0x80 ≤ b3 ∧ b3 ≤ 0xBF) :
    EncodeRune ((p0 % 8) * 262144 + (b1 % 64) * 4096 + (b2 % 64) * 64 + b3 % 64) =
      [p0, b1, b2, b3] := by
  unfold lead4 at h
  simp only [EncodeRune]
  rw [if_neg (by omega), if_neg (by omega), if_neg (by omega), if_neg (by omega)]
  congr 1
  · omega
  · congr 1
    · omega
    · congr 1
      · omega
      · congr 1
        omega

/-- A valid multi-byte sequence at the front of a string: the bytes of the
sequence, the rest, and the rune; decoding the sequence in front of anything
yields the rune and encoding the rune yields the sequence. -/
theorem valid_rune (p0 : Nat) (rest : GoString) (h80 : 0x80 ≤ p0)
    (hv : ¬ ((DecodeRune (p0 :: rest)).1 = RuneError ∧ (DecodeRune (p0 :: rest)).2 = 1)) :
    ∃ r ctail q, rest = ctail ++ q ∧ 1 ≤ ctail.length ∧ ctail.length ≤ 3 ∧
      EncodeRune r = p0 :: ctail ∧
      ∀ x, DecodeRune (p0 :: ctail ++ x) = (r, ctail.length + 1) := by
  rcases DecodeRune_shape p0 rest h80 with h | ⟨b1, q, e, h0, h1⟩ | ⟨b1, b2, q, e, h0, h2⟩ |
      ⟨b1, b2, b3, q, e, h0, h2, h3⟩
  · rw [h] at hv
    exact absurd ⟨rfl, rfl⟩ hv
  · exact ⟨_, [b1], q, e, by simp, by simp, EncodeRune_two p0 b1 h0 h1,
      fun x => DecodeRune_two p0 b1 x h0 h1⟩
  · exact ⟨_, [b1, b2], q, e, by simp, by simp, EncodeRune_three p0 b1 b2 h0 h2,
      fun x => DecodeRune_three p0 b1 b2 x h0 h2⟩
  · exact ⟨_, [b1, b2, b3], q, e, by simp, by simp, EncodeRune_four p0 b1 b2 b3 h0 h2 h3,
      fun x => DecodeRune_four p0 b1 b2 b3 x h0 h2 h3⟩

/-! ## String literals -/

theorem unquoteLoop_quote (F : Nat) (X : GoString) :
    unquoteLoop (F + 1) (34 :: X) = some ([], X) := by
  simp [unquoteLoop]

theorem unquoteLoop_ascii (F c : Nat) (X : GoString) (h1 : 32 ≤ c) (h2 : c < 0x80)
    (h3 : c ≠ 34) (h4 : c ≠ 92) :
    unquoteLoop (F + 1) (c :: X) = (unquoteLoop F X).map fun r => (c :: r.1, r.2) := by
  simp only [unquoteLoop]
  rw [if_neg h3, if_neg h4, if_neg (by omega), if_pos h2]

theorem unquoteLoop_simple (F e b : Nat) (X : GoString) (he : e ≠ 117)
    (hb : simpleEscape e = some b) :
    unquoteLoop (F + 1) (92 :: e :: X) = (unquoteLoop F X).map fun r => (b :: r.1, r.2) := by
  rw [unquoteLoop]
  simp only [if_neg he, hb]
  simp

theorem unquoteLoop_u (F a b c d rr : Nat) (X : GoString)
    (hg : getu4 (92 :: 117 :: a :: b :: c :: d :: X) = some rr) (hs : IsSurrogate rr = false) :
    unquoteLoop (F + 1) (92 :: 117 :: a :: b :: c :: d :: X) =
      (unquoteLoop F X).map fun r => (EncodeRune rr ++ r.1, r.2) := by
  rw [unquoteLoop]
  simp only [hg, hs]
  simp

theorem unquoteLoop_raw (F p0 r : Nat) (ctail X : GoString) (h80 : 0x80 ≤ p0)
    (hd : DecodeRune (p0 :: ctail ++ X) = (r, ctail.length + 1)) :
    unquoteLoop (F + 1) (p0 :: ctail ++ X) =
      (unquoteLoop F X).map fun x => (EncodeRune r ++ x.1, x.2) := by
  rw [List.cons_append] at hd ⊢
  simp only [unquoteLoop]
  rw [if_neg (by omega), if_neg (by omega), if_neg (by omega), if_neg (by omega)]
  rw [hd]
  simp

theorem hexval_hex (x : Nat) (h : x < 16) : hexval (hex x) = some x := by
  interval_cases x <;> rfl

theorem getu4_low (b : Nat) (X : GoString) (h : b < 0x80) :
    getu4 (92 :: 117 :: 48 :: 48 :: hex (b / 16) :: hex (b % 16) :: X) = some b := by
  have e0 : hexval 48 = some 0 := rfl
  simp only [getu4, hexval_hex (b / 16) (by omega), hexval_hex (b % 16) (by omega), e0]
  simp
  omega

/-- Decoding what `appendString` writes for one ASCII byte gives the byte. -/
theorem unquoteLoop_ascii_enc (F b : Nat) (X : GoString) (h : b < 0x80) :
    unquoteLoop (F + 1) ((if htmlSafeSet b then [b] else escapeByte b) ++ X) =
      (unquoteLoop F X).map fun r => (b :: r.1, r.2) := by
  by_cases hs : htmlSafeSet b = true
  · rw [if_pos hs]
    simp only [htmlSafeSet, decide_eq_true_eq] at hs
    exact unquoteLoop_ascii F b X (by omega) h (by omega) (by omega)
  · rw [if_neg hs]
    simp only [escapeByte]
    by_cases c1 : b = 92 ∨ b = 34
    · rw [if_pos c1]
      rcases c1 with c | c <;> subst c <;> exact unquoteLoop_simple F _ _ X (by decide) rfl
    rw [if_neg c1]
    by_cases c2 : b = 8
    · subst c2; exact unquoteLoop_simple F _ _ X (by decide) rfl
    rw [if_neg c2]
    by_cases c3 : b = 12
    · subst c3; exact unquoteLoop_simple F _ _ X (by decide) rfl
    rw [if_neg c3]
    by_cases c4 : b = 10
    · subst c4; exact unquoteLoop_simple F _ _ X (by decide) rfl
    rw [if_neg c4]
    by_cases c5 : b = 13
    · subst c5; exact unquoteLoop_simple F _ _ X (by decide) rfl
    rw [if_neg c5]
    by_cases c6 : b = 9
    · subst c6; exact unquoteLoop_simple F _ _ X (by decide) rfl
    rw [if_neg c6]
    have hsur : IsSurrogate b = false := by
      simp only [IsSurrogate, decide_eq_false_iff_not]
      omega
    have hen : EncodeRune b = [b] := by
      simp only [EncodeRune]
      rw [if_pos (by omega)]
    have := unquoteLoop_u F 48 48 (hex (b / 16)) (hex (b % 16)) b X (getu4_low b X h) hsur
    rw [hen] at this
    exact this

theorem appendStringLoop_ascii (fuel b : Nat) (rest : GoString) (h : b < 0x80) :
    appendStringLoop (fuel + 1) (b :: rest) =
      (if htmlSafeSet b then [b] else escapeByte b) ++ appendStringLoop fuel rest := by
  simp only [appendStringLoop]
  rw [if_pos h]

theorem take_four_valid (p0 : Nat) (ctail q : GoString) (h : ctail.length ≤ 3) :
    (p0 :: (ctail ++ q)).take 4 = p0 :: ctail ++ q.take (3 - ctail.length) := by
  rw [List.take_succ_cons, List.take_append_eq_append_take, List.take_of_length_le h]
  rfl

theorem appendStringLoop_rune (fuel p0 r : Nat) (ctail q : GoString) (h80 : 0x80 ≤ p0)
    (h1 : 1 ≤ ctail.length) (h3 : ctail.length ≤ 3)
    (hd : ∀ x, DecodeRune (p0 :: ctail ++ x) = (r, ctail.length + 1)) :
    appendStringLoop (fuel + 1) (p0 :: (ctail ++ q)) =
      (if r = 0x2028 ∨ r = 0x2029 then [92, 117, 50, 48, 50, hex (r % 16)] else p0 :: ctail) ++
        appendStringLoop fuel q := by
  simp only [appendStringLoop]
  rw [if_neg (by omega), take_four_valid p0 ctail q h3, hd]
  simp only
  rw [if_neg (by omega)]
  have e1 : List.drop (ctail.length + 1) (p0 :: (ctail ++ q)) = q := by
    simp
  have e2 : List.take (ctail.length + 1) (p0 :: (ctail ++ q)) = p0 :: ctail := by
    simp
  rw [e1, e2]
  split <;> rfl

/-- Decoding what `appendString` writes for one valid multi-byte rune gives
the bytes of the rune. -/
theorem unquoteLoop_rune_enc (F p0 r : Nat) (ctail X : GoString) (h80 : 0x80 ≤ p0)
    (he : EncodeRune r = p0 :: ctail)
    (hd : ∀ x, DecodeRune (p0 :: ctail ++ x) = (r, ctail.length + 1)) :
    unquoteLoop (F + 1)
        ((if r = 0x2028 ∨ r = 0x2029 then [92, 117, 50, 48, 50, hex (r % 16)] else p0 :: ctail)
          ++ X) =
      (unquoteLoop F X).map fun x => (p0 :: ctail ++ x.1, x.2) := by
  by_cases c : r = 0x2028 ∨ r = 0x2029
  · rw [if_pos c, ← he]
    rcases c with c | c <;> subst c <;>
      exact unquoteLoop_u F _ _ _ _ _ X rfl rfl
  · rw [if_neg c, ← he]
    rw [he]
    have := unquoteLoop_raw F p0 r ctail X h80 (hd X)
    rw [he] at this
    exact this

theorem validLoop_cons (vf p0 : Nat) (rest : GoString) :
    validLoop (vf + 1) (p0 :: rest) =
      if (DecodeRune (p0 :: rest)).1 = RuneError ∧ (DecodeRune (p0 :: rest)).2 = 1 then false
      else validLoop vf ((p0 :: rest).drop (DecodeRune (p0 :: rest)).2) := by
  simp only [validLoop]

theorem DecodeRune_ascii (b : Nat) (rest : GoString) (h : b < 0x80) :
    DecodeRune (b :: rest) = (b, 1) := by
  simp only [DecodeRune]
  rw [if_pos h]

theorem escape_length (b : Nat) :
    1 ≤ (if htmlSafeSet b then [b] else escapeByte b).length := by
  split
  · simp
  · simp only [escapeByte]
    split_ifs <;> simp

theorem rune_escape_length (r p0 : Nat) (ctail : GoString) :
    1 ≤ (if r = 0x2028 ∨ r = 0x2029 then [92, 117, 50, 48, 50, hex (r % 16)]
          else p0 :: ctail).length := by
  split <;> simp

/-- What `appendString` writes for a valid UTF-8 string, followed by the
closing quote, is read back by the string scanner as that string. -/
theorem unquoteLoop_appendStringLoop (n : Nat) :
    ∀ (s : GoString) (vf fuel F : Nat) (X : GoString), s.length ≤ n →
      validLoop vf s = true → s.length ≤ fuel → (appendStringLoop fuel s).length < F →
      unquoteLoop F (appendStringLoop fuel s ++ 34 :: X) = some (s, X) := by
  induction n with
  | zero =>
    intro s vf fuel F X hn _ _ hF
    have hs : s = [] := List.length_eq_zero.1 (Nat.le_zero.1 hn)
    subst hs
    obtain ⟨F', rfl⟩ : ∃ F', F = F' + 1 := ⟨F - 1, by omega⟩
    simp only [appendStringLoop, List.nil_append]
    exact unquoteLoop_quote F' X
  | succ n ih =>
    intro s vf fuel F X hn hv hfuel hF
    cases s with
    | nil =>
      obtain ⟨F', rfl⟩ : ∃ F', F = F' + 1 := ⟨F - 1, by omega⟩
      simp only [appendStringLoop, List.nil_append]
      exact unquoteLoop_quote F' X
    | cons b tail =>
      simp only [List.length_cons] at hn hfuel
      obtain ⟨fuel', rfl⟩ : ∃ f, fuel = f + 1 := ⟨fuel - 1, by omega⟩
      cases vf with
      | zero => simp [validLoop] at hv
      | succ vf' =>
        rw [validLoop_cons] at hv
        by_cases hb : b < 0x80
        · rw [DecodeRune_ascii b tail hb] at hv
          have hne : ¬ ((b, 1).1 = RuneError ∧ (b, 1).2 = 1) := by
            simp only [RuneError]
            omega
          rw [if_neg hne] at hv
          simp only [List.drop_succ_cons, List.drop_zero] at hv
          rw [appendStringLoop_ascii fuel' b tail hb] at hF ⊢
          have hl := escape_length b
          rw [List.length_append] at hF
          obtain ⟨F', rfl⟩ : ∃ F', F = F' + 1 := ⟨F - 1, by omega⟩
          rw [List.append_assoc, unquoteLoop_ascii_enc F' b _ hb,
            ih tail vf' fuel' F' X (by omega) hv (by omega) (by omega)]
          rfl
        · have h80 : 0x80 ≤ b := by omega
          by_cases hbad : (DecodeRune (b :: tail)).1 = RuneError ∧ (DecodeRune (b :: tail)).2 = 1
          · rw [if_pos hbad] at hv
            cases hv
          · rw [if_neg hbad] at hv
            obtain ⟨r, ctail, q, e, h1, h3, he, hd⟩ := valid_rune b tail h80 hbad
            subst e
            have hdq := hd q
            rw [List.cons_append] at hdq
            rw [hdq] at hv
            have e1 : List.drop (ctail.length + 1) (b :: (ctail ++ q)) = q := by
              simp
            simp only [e1] at hv
            rw [appendStringLoop_rune fuel' b r ctail q h80 h1 h3 hd] at hF ⊢
            have hl := rune_escape_length r b ctail
            rw [List.length_append] at hF
            simp only [List.length_append] at hn hfuel
            obtain ⟨F', rfl⟩ : ∃ F', F = F' + 1 := ⟨F - 1, by omega⟩
            rw [List.append_assoc, unquoteLoop_rune_enc F' b r ctail _ h80 he hd,
              ih q vf' fuel' F' X (by omega) hv (by omega) (by omega)]
            simp

/-! ## The JSON parser on encoded schedules -/

theorem unquote_body (s X : GoString) (hv : ValidString s = true) :
    unquote (appendStringLoop s.length s ++ 34 :: X) = some (s, X) := by
  unfold unquote
  exact unquoteLoop_appendStringLoop s.length s s.length s.length _ X (le_refl _) hv (le_refl _)
    (by simp only [List.length_append, List.length_cons]; omega)

theorem appendString_append (s X : GoString) :
    appendString s ++ X = 34 :: (appendStringLoop s.length s ++ 34 :: X) := by
  simp [appendString]

theorem skipSpace_cons (c : Nat) (X : GoString) (h : isSpace c = false) :
    skipSpace (c :: X) = c :: X := by
  simp [skipSpace, h]

theorem parseValue_string (F d : Nat) (Y : GoString) :
    parseValue (F + 1) d (34 :: Y) = (unquote Y).map fun r => (JValue.string r.1, r.2) := by
  rw [parseValue, skipSpace_cons 34 Y rfl]
  simp

theorem parseValue_object (F d : Nat) (Y : GoString) (hd : d + 1 ≤ maxNestingDepth) :
    parseValue (F + 1) d (123 :: 34 :: Y) =
      (parseMembers F (d + 1) (34 :: Y)).map fun r => (JValue.object r.1, r.2) := by
  rw [parseValue, skipSpace_cons 123 _ rfl]
  simp only
  rw [skipSpace_cons 34 Y rfl]
  simp
  omega

theorem parseMembers_cons (F d : Nat) (key Y Z W : GoString) (v : JValue)
    (hk : unquote Y = some (key, 58 :: Z)) (hval : parseValue F d Z = some (v, 44 :: W)) :
    parseMembers (F + 1) d (34 :: Y) =
      (parseMembers F d W).map fun m => ((key, v) :: m.1, m.2) := by
  rw [parseMembers, skipSpace_cons 34 Y rfl]
  simp only [hk]
  rw [skipSpace_cons 58 Z rfl]
  simp only [hval]
  rw [skipSpace_cons 44 W rfl]
  simp

theorem parseMembers_last (F d : Nat) (key Y Z W : GoString) (v : JValue)
    (hk : unquote Y = some (key, 58 :: Z)) (hval : parseValue F d Z = some (v, 125 :: W)) :
    parseMembers (F + 1) d (34 :: Y) = some ([(key, v)], W) := by
  rw [parseMembers, skipSpace_cons 34 Y rfl]
  simp only [hk]
  rw [skipSpace_cons 58 Z rfl]
  simp only [hval]
  rw [skipSpace_cons 125 W rfl]
  simp

theorem encodeSchedule_append (sch : Schedule) (X : GoString) :
    encodeSchedule sch ++ X =
      123 :: 34 :: (appendStringLoop 3 (ascii "day") ++ 34 :: 58 ::
        (appendString sch.Day ++ 44 :: 34 :: (appendStringLoop 9 (ascii "start_fmt") ++ 34 :: 58 ::
          (appendString sch.StartFmt ++ 44 :: 34 :: (appendStringLoop 7 (ascii "end_fmt") ++
            34 :: 58 :: (appendString sch.EndFmt ++ 125 :: X)))))) := by
  simp only [encodeSchedule, List.append_assoc]
  rfl

theorem parseValue_appendString (F d : Nat) (s X : GoString) (hv : ValidString s = true) :
    parseValue (F + 1) d (appendString s ++ X) = some (JValue.string s, X) := by
  rw [appendString_append, parseValue_string, unquote_body s X hv]
  rfl

/-- The parser reads what `encodeSchedule` writes for a schedule with valid
UTF-8 fields. -/
theorem parseValue_encodeSchedule (F d : Nat) (sch : Schedule) (X : GoString) (hF : 4 ≤ F)
    (hd : d + 1 ≤ maxNestingDepth) (h1 : ValidString sch.Day = true)
    (h2 : ValidString sch.StartFmt = true) (h3 : ValidString sch.EndFmt = true) :
    parseValue (F + 1) d (encodeSchedule sch ++ X) = some (scheduleValue sch, X) := by
  obtain ⟨F1, rfl⟩ : ∃ f, F = f + 1 := ⟨F - 1, by omega⟩
  obtain ⟨F2, rfl⟩ : ∃ f, F1 = f + 1 := ⟨F1 - 1, by omega⟩
  obtain ⟨F3, rfl⟩ : ∃ f, F2 = f + 1 := ⟨F2 - 1, by omega⟩
  obtain ⟨F4, rfl⟩ : ∃ f, F3 = f + 1 := ⟨F3 - 1, by omega⟩
  have k1 : ∀ Z, unquote (appendStringLoop 3 (ascii "day") ++ 34 :: 58 :: Z) =
      some (ascii "day", 58 :: Z) := fun Z => unquote_body (ascii "day") _ rfl
  have k2 : ∀ Z, unquote (appendStringLoop 9 (ascii "start_fmt") ++ 34 :: 58 :: Z) =
      some (ascii "start_fmt", 58 :: Z) := fun Z => unquote_body (ascii "start_fmt") _ rfl
  have k3 : ∀ Z, unquote (appendStringLoop 7 (ascii "end_fmt") ++ 34 :: 58 :: Z) =
      some (ascii "end_fmt", 58 :: Z) := fun Z => unquote_body (ascii "end_fmt") _ rfl
  rw [encodeSchedule_append, parseValue_object _ d _ hd]
  rw [parseMembers_cons (F4 + 1 + 1 + 1) (d + 1) (ascii "day") _ _ _ (JValue.string sch.Day)
    (k1 _) (parseValue_appendString _ _ _ _ h1)]
  rw [parseMembers_cons (F4 + 1 + 1) (d + 1) (ascii "start_fmt") _ _ _
    (JValue.string sch.StartFmt) (k2 _) (parseValue_appendString _ _ _ _ h2)]
  rw [parseMembers_last (F4 + 1) (d + 1) (ascii "end_fmt") _ _ _ (JValue.string sch.EndFmt)
    (k3 _) (parseValue_appendString _ _ _ _ h3)]
  rfl

theorem encodeMember_append (e : GoString × Schedule) (X : GoString) :
    encodeMember e ++ X =
      34 :: (appendStringLoop e.1.length e.1 ++ 34 :: 58 :: (encodeSchedule e.2 ++ X)) := by
  simp [encodeMember, appendString]

theorem encodeMember_length (e : GoString × Schedule) : 4 ≤ (encodeMember e).length := by
  have h := congrArg List.length (encodeMember_append e [])
  rw [List.append_nil] at h
  rw [h]
  have h2 := congrArg List.length (encodeSchedule_append e.2 [])
  simp only [List.length_cons, List.length_append] at h h2 ⊢
  omega

theorem encodeMembers_length : ∀ es : List (GoString × Schedule),
    4 * es.length ≤ (encodeMembers es).length
  | [] => by simp [encodeMembers]
  | [e] => by
    have := encodeMember_length e
    simp only [encodeMembers, List.length_singleton]
    omega
  | e :: e' :: rest => by
    have h1 := encodeMember_length e
    have h2 := encodeMembers_length (e' :: rest)
    simp only [encodeMembers, List.length_cons, List.length_append] at h2 ⊢
    omega

/-- The parser reads the members `mapEncoder.encode` writes, up to the
closing brace. -/
theorem parseMembers_encodeMembers : ∀ (es : List (GoString × Schedule)) (F d : Nat)
    (X : GoString), es ≠ [] → es.length + 5 ≤ F → d + 1 ≤ maxNestingDepth →
    (∀ e ∈ es, ValidString e.1 = true ∧ ValidString e.2.Day = true ∧
      ValidString e.2.StartFmt = true ∧ ValidString e.2.EndFmt = true) →
    parseMembers F d (encodeMembers es ++ 125 :: X) = some (es.map memberValue, X)
  | [], _, _, _, h, _, _, _ => absurd rfl h
  | [e], F, d, X, _, hF, hd, hv => by
    obtain ⟨v1, v2, v3, v4⟩ := hv e (List.mem_singleton.2 rfl)
    simp only [List.length_singleton] at hF
    obtain ⟨F1, rfl⟩ : ∃ f, F = f + 1 := ⟨F - 1, by omega⟩
    obtain ⟨F2, rfl⟩ : ∃ f, F1 = f + 1 := ⟨F1 - 1, by omega⟩
    simp only [encodeMembers]
    rw [encodeMember_append]
    rw [parseMembers_last (F2 + 1) d e.1 _ _ _ (scheduleValue e.2) (unquote_body e.1 _ v1)
      (parseValue_encodeSchedule F2 d e.2 _ (by omega) hd v2 v3 v4)]
    rfl
  | e :: e' :: rest, F, d, X, _, hF, hd, hv => by
    obtain ⟨v1, v2, v3, v4⟩ := hv e (List.mem_cons_self _ _)
    simp only [List.length_cons] at hF
    obtain ⟨F1, rfl⟩ : ∃ f, F = f + 1 := ⟨F - 1, by omega⟩
    obtain ⟨F2, rfl⟩ : ∃ f, F1 = f + 1 := ⟨F1 - 1, by omega⟩
    have ih := parseMembers_encodeMembers (e' :: rest) (F2 + 1) d X (by simp)
      (by simp only [List.length_cons]; omega) hd
      (fun x hx => hv x (List.mem_cons_of_mem _ hx))
    have e1 : encodeMembers (e :: e' :: rest) ++ 125 :: X =
        encodeMember e ++ (44 :: (encodeMembers (e' :: rest) ++ 125 :: X)) := by
      simp [encodeMembers]
    rw [e1, encodeMember_append]
    rw [parseMembers_cons (F2 + 1) d e.1 _ _ _ (scheduleValue e.2) (unquote_body e.1 _ v1)
      (parseValue_encodeSchedule F2 d e.2 _ (by omega) hd v2 v3 v4)]
    rw [ih]
    rfl

/-- The parser reads what `json.Marshal` writes for a non-nil map with valid
UTF-8 strings. -/
theorem parseJSON_encodeMembers (es : List (GoString × Schedule))
    (hv : ∀ e ∈ es, ValidString e.1 = true ∧ ValidString e.2.Day = true ∧
      ValidString e.2.StartFmt = true ∧ ValidString e.2.EndFmt = true) :
    parseJSON ([123] ++ encodeMembers es ++ [125]) = some (JValue.object (es.map memberValue)) := by
  cases es with
  | nil => rfl
  | cons e rest =>
    have hlen := encodeMembers_length (e :: rest)
    have hm := parseMembers_encodeMembers (e :: rest)
      (([123] ++ encodeMembers (e :: rest) ++ [125]).length) (0 + 1) [] (by simp)
      (by simp only [List.length_append, List.length_cons, List.length_nil] at hlen ⊢; omega)
      (by decide) hv
    have hshape : ∃ Y, encodeMembers (e :: rest) ++ [125] = 34 :: Y := by
      cases rest with
      | nil => exact ⟨_, by simp only [encodeMembers]; exact encodeMember_append e [125]⟩
      | cons e' r =>
        rw [show encodeMembers (e :: e' :: r) ++ [125] =
          encodeMember e ++ (44 :: (encodeMembers (e' :: r) ++ [125])) by simp [encodeMembers]]
        exact ⟨_, encodeMember_append e _⟩
    obtain ⟨Y, hY⟩ := hshape
    unfold parseJSON
    have e2 : [123] ++ encodeMembers (e :: rest) ++ [125] = 123 :: 34 :: Y := by
      rw [List.append_assoc, hY]
      rfl
    rw [hY] at hm
    rw [e2] at hm ⊢
    rw [parseValue_object _ 0 Y (by decide), hm]
    rfl

/-! ## Maps as association lists -/

theorem lookup_cons_pair (l : List (GoString × Schedule)) (k k' : GoString) (v : Schedule) :
    ((k', v) :: l).lookup k = if k = k' then some v else l.lookup k := by
  rw [List.lookup_cons]
  by_cases h : k = k'
  · simp [h]
  · have hb : (k == k') = false := by simpa using h
    rw [hb, if_neg h]

theorem lookup_filter_ne (l : List (GoString × Schedule)) (k k' : GoString) (h : k ≠ k') :
    (l.filter fun e => e.1 != k').lookup k = l.lookup k := by
  induction l with
  | nil => rfl
  | cons e rest ih =>
    obtain ⟨a, b⟩ := e
    by_cases c : a = k'
    · subst c
      rw [List.filter_cons_of_neg (by simp), ih, lookup_cons_pair, if_neg h]
    · rw [List.filter_cons_of_pos (by simpa using c), lookup_cons_pair, lookup_cons_pair, ih]

theorem lookup_mapSet (l : List (GoString × Schedule)) (k k' : GoString) (v : Schedule) :
    (mapSet l k' v).lookup k = if k = k' then some v else l.lookup k := by
  unfold mapSet
  rw [lookup_cons_pair]
  by_cases h : k = k'
  · rw [if_pos h, if_pos h]
  · rw [if_neg h, if_neg h, lookup_filter_ne l k k' h]

/-- Writing the entries one after the other binds each key to the last entry
that carries it. -/
theorem lookup_foldl_mapSet (es : List (GoString × Schedule)) :
    ∀ (acc : List (GoString × Schedule)) (k : GoString),
      (es.foldl (fun m e => mapSet m e.1 e.2) acc).lookup k =
        (es.reverse.lookup k).or (acc.lookup k) := by
  induction es with
  | nil => intro acc k; simp
  | cons e rest ih =>
    intro acc k
    rw [List.foldl_cons, ih, List.reverse_cons, List.lookup_append, lookup_mapSet]
    obtain ⟨a, b⟩ := e
    rw [lookup_cons_pair]
    cases rest.reverse.lookup k with
    | some v => rfl
    | none =>
      by_cases h : k = a
      · simp [h]
      · simp [h]

theorem mem_of_lookup (l : List (GoString × Schedule)) (k : GoString) (v : Schedule)
    (h : l.lookup k = some v) : (k, v) ∈ l := by
  obtain ⟨l1, l2, e, _⟩ := List.lookup_eq_some_iff.1 h
  rw [e]
  simp

theorem lookup_of_mem (l : List (GoString × Schedule)) (k : GoString) (v : Schedule)
    (hn : (l.map Prod.fst).Nodup) (h : (k, v) ∈ l) : l.lookup k = some v := by
  induction l with
  | nil => cases h
  | cons e rest ih =>
    obtain ⟨a, b⟩ := e
    rw [List.map_cons, List.nodup_cons] at hn
    rw [lookup_cons_pair]
    rcases List.mem_cons.1 h with h' | h'
    · cases h'
      rw [if_pos rfl]
    · have hne : k ≠ a := by
        intro e
        subst e
        exact hn.1 (List.mem_map.2 ⟨(k, v), h', rfl⟩)
      rw [if_neg hne]
      exact ih hn.2 h'

/-- Two association lists with the same entries and distinct keys bind every
key alike. -/
theorem lookup_perm (l1 l2 : List (GoString × Schedule)) (k : GoString)
    (hn : (l1.map Prod.fst).Nodup) (hp : l1.Perm l2) : l1.lookup k = l2.lookup k := by
  have hn2 : (l2.map Prod.fst).Nodup := (hp.map Prod.fst).nodup_iff.1 hn
  cases h1 : l1.lookup k with
  | some v =>
    exact (lookup_of_mem l2 k v hn2 (hp.subset (mem_of_lookup l1 k v h1))).symm
  | none =>
    cases h2 : l2.lookup k with
    | none => rfl
    | some v =>
      have := lookup_of_mem l1 k v hn (hp.symm.subset (mem_of_lookup l2 k v h2))
      rw [h1] at this
      cases this

theorem sortedEntries_perm (l : List (GoString × Schedule)) : (sortedEntries l).Perm l :=
  List.perm_insertionSort _ l

/-! ## Storing the parsed value -/

theorem storeSchedule_scheduleValue (sch : Schedule) :
    storeSchedule (scheduleValue sch) = some sch := by
  have f1 : fieldMatches (ascii "day") (ascii "day") = true := rfl
  have f2 : fieldMatches (ascii "day") (ascii "start_fmt") = false := rfl
  have f3 : fieldMatches (ascii "start_fmt") (ascii "start_fmt") = true := rfl
  have f4 : fieldMatches (ascii "day") (ascii "end_fmt") = false := rfl
  have f5 : fieldMatches (ascii "start_fmt") (ascii "end_fmt") = false := rfl
  have f6 : fieldMatches (ascii "end_fmt") (ascii "end_fmt") = true := rfl
  simp [storeSchedule, scheduleValue, List.foldlM, storeScheduleField, storeString,
    f1, f2, f3, f4, f5, f6]

theorem foldlM_memberValue (es : List (GoString × Schedule)) :
    ∀ acc : List (GoString × Schedule),
      (es.map memberValue).foldlM
          (fun m kv => (storeSchedule kv.2).map fun e => mapSet m kv.1 e) acc =
        some (es.foldl (fun m e => mapSet m e.1 e.2) acc) := by
  induction es with
  | nil => intro acc; rfl
  | cons e rest ih =>
    intro acc
    rw [List.map_cons, List.foldlM_cons, List.foldl_cons]
    simp only [memberValue, storeSchedule_scheduleValue, Option.map_some', Option.bind_eq_bind,
      Option.some_bind]
    exact ih _

/-! ## The schedule round trip -/

/-- Decoding the encoding of a non-nil map with valid UTF-8 strings yields
the map built from its entries in key order. -/
theorem Unmarshal_Marshal_some (l : List (GoString × Schedule))
    (hv : ∀ e ∈ l, ValidString e.1 = true ∧ ValidString e.2.Day = true ∧
      ValidString e.2.StartFmt = true ∧ ValidString e.2.EndFmt = true) :
    UnmarshalSchedules (MarshalSchedules (some l)) =
      some (some ((sortedEntries l).foldl (fun m e => mapSet m e.1 e.2) [])) := by
  have hv' : ∀ e ∈ sortedEntries l, ValidString e.1 = true ∧ ValidString e.2.Day = true ∧
      ValidString e.2.StartFmt = true ∧ ValidString e.2.EndFmt = true :=
    fun e he => hv e ((sortedEntries_perm l).subset he)
  simp only [UnmarshalSchedules, MarshalSchedules, parseJSON_encodeMembers _ hv',
    storeScheduleMap, foldlM_memberValue]
  rfl

theorem MarshalSchedules_ne_nil (S : ScheduleMap) : MarshalSchedules S ≠ [] := by
  cases S with
  | none => decide
  | some l => simp [MarshalSchedules]

/-- The map read back after a round trip binds every key as the original. -/
theorem mapGet_round_trip (l : List (GoString × Schedule)) (hn : (l.map Prod.fst).Nodup)
    (k : GoString) :
    mapGet (some ((sortedEntries l).foldl (fun m e => mapSet m e.1 e.2) [])) k =
      mapGet (some l) k := by
  have hp := sortedEntries_perm l
  have hns : ((sortedEntries l).map Prod.fst).Nodup := (hp.map Prod.fst).nodup_iff.2 hn
  have hnr : ((sortedEntries l).reverse.map Prod.fst).Nodup :=
    ((List.reverse_perm _).map Prod.fst).nodup_iff.2 hns
  simp only [mapGet]
  rw [lookup_foldl_mapSet, List.lookup_nil, Option.or_none,
    lookup_perm _ _ k hnr ((List.reverse_perm _).trans hp)]

set_option maxRecDepth 100000 in
/-- C7 fails as stated: a schedule set whose only key is the single byte
0xFF (not valid UTF-8) is written with that key replaced by the escape of
U+FFFD, and the read path returns a map that has the key EF BF BD, not
0xFF. -/
theorem round_trip_loses_invalid_utf8 :
    readSchedule sampleScheduler
        (sampleScheduler.Schedule goodConn emptyStore (ascii "product_a")
          (some [([0xFF], ⟨ascii "wednesday", ascii "15:20:00", ascii "15:21:00"⟩)])).2.1
        (ascii "product_a") =
      some (some [([0xEF, 0xBF, 0xBD],
        ⟨ascii "wednesday", ascii "15:20:00", ascii "15:21:00"⟩)]) ∧
    mapGet (some [([0xEF, 0xBF, 0xBD], ⟨ascii "wednesday", ascii "15:20:00", ascii "15:21:00"⟩)])
      [0xFF] = none ∧
    mapGet (some [([0xFF], ⟨ascii "wednesday", ascii "15:20:00", ascii "15:21:00"⟩)]) [0xFF] =
      some ⟨ascii "wednesday", ascii "15:20:00", ascii "15:21:00"⟩ :=
  ⟨rfl, rfl, rfl⟩

/-- C7 as amended.  Schedule round trip for valid UTF-8: for every id and
every schedule set whose keys and `Day`, `StartFmt`, `EndFmt` fields are valid
UTF-8 strings, the string `Schedule` writes for `id` is decoded by the read
path of `process` without error to a map equal to the set: nil exactly when
the set is nil, and with the same schedule under every key. -/
theorem schedule_round_trip (m : MaintenanceScheduler) (c : Conn) (st : Store)
    (id : GoString) (S : ScheduleMap) (hok : c.ok) (hd : distinctKeys S)
    (hv : validStrings S) :
    ∃ S', readSchedule m (m.Schedule c st id S).2.1 id = some S' ∧
      (S' = none ↔ S = none) ∧ ∀ k, mapGet S' k = mapGet S k := by
  rw [Schedule_ok m c st id S hok, readSchedule_eq]
  simp only
  rw [hset_same]
  simp only [Option.some_bind, if_neg (MarshalSchedules_ne_nil S)]
  cases S with
  | none => exact ⟨none, rfl, Iff.rfl, fun _ => rfl⟩
  | some l =>
    rw [Unmarshal_Marshal_some l hv]
    exact ⟨_, rfl, by simp, fun k => mapGet_round_trip l hd k⟩

set_option maxRecDepth 100000 in
/-- C7, on the sample: the schedule set registered for `product_a` is read
back. -/
theorem schedule_round_trip_witness :
    goodConn.ok ∧ distinctKeys sampleSchedules ∧ validStrings sampleSchedules ∧
    ∃ S', readSchedule sampleScheduler
        (sampleScheduler.Schedule goodConn emptyStore (ascii "product_a") sampleSchedules).2.1
        (ascii "product_a") = some S' ∧
      (S' = none ↔ sampleSchedules = none) ∧ ∀ k, mapGet S' k = mapGet sampleSchedules k :=
  have h1 : goodConn.ok := fun _ => rfl
  have h2 : distinctKeys sampleSchedules := List.nodup_singleton _
  have h3 : validStrings sampleSchedules := by
    intro e he
    have : e = (ascii "wednesday", ⟨ascii "wednesday", ascii "15:20:00", ascii "15:21:00"⟩) :=
      List.mem_singleton.1 he
    subst this
    exact ⟨rfl, rfl, rfl, rfl⟩
  ⟨h1, h2, h3,
    schedule_round_trip sampleScheduler goodConn emptyStore (ascii "product_a") sampleSchedules
      h1 h2 h3⟩

end Redismaint
